import Mathlib

/-!
Verification of the newsletter-digest core of the Obsidian inbox email
worker (`src/worker.ts`): digest rendering and parsing, the read-modify-write
merge, excerpt extraction, topic classification, and the tracking-image
rules of the newsletter Turndown service.

Strings are modeled as `List Char` (`Str`). JavaScript string methods and the
regexes used by the worker are given executable models over `Str`; each model
carries a comment naming the JavaScript construct it embeds. JavaScript
`.length` counts UTF-16 units while `List Char` counts code points; none of
the markers or boundary characters involved are outside the BMP, so lengths
agree on everything the proofs measure.
-/

set_option maxHeartbeats 1000000
set_option maxRecDepth 100000

namespace ObsidianInbox

abbrev Str := List Char

/-- Whitespace test matching the JavaScript `\s` class on the ASCII range
(space, tab, newline, carriage return, vertical tab, form feed). JavaScript
additionally includes some exotic Unicode spaces; none occur in the worker's
templates or markers. -/
def isSpaceJS (c : Char) : Bool :=
  c = ' ' || c = '\t' || c = '\n' || c = '\r' || c = '\x0b' || c = '\x0c'

/-- Model of JavaScript String.prototype.trim. -/
def trimL (s : Str) : Str :=
  ((s.dropWhile isSpaceJS).reverse.dropWhile isSpaceJS).reverse

/-- Model of JavaScript String.prototype.includes: does `pat` occur anywhere
in `s`? -/
def occursInB (pat : Str) : Str → Bool
  | [] => pat.isEmpty
  | c :: cs => pat.isPrefixOf (c :: cs) || occursInB pat cs

/-- Occurrence of `pat` somewhere in `s`, as a proposition. -/
def occursPred (pat s : Str) : Prop := ∃ i, pat <+: s.drop i

instance occursPredDecidable (pat s : Str) : Decidable (occursPred pat s) :=
  decidable_of_iff (((List.range (s.length + 1)).any fun i => pat.isPrefixOf (s.drop i)) = true) (by
    simp only [List.any_eq_true, List.isPrefixOf_iff_prefix, List.mem_range]
    constructor
    · rintro ⟨i, _, hp⟩
      exact ⟨i, hp⟩
    · rintro ⟨i, hp⟩
      by_cases hi : i ≤ s.length
      · exact ⟨i, by omega, hp⟩
      · refine ⟨s.length, by omega, ?_⟩
        have h1 : s.drop i = [] := List.drop_eq_nil_of_le (by omega)
        have h2 : s.drop s.length = [] := List.drop_eq_nil_of_le le_rfl
        rw [h1] at hp
        rw [h2]
        exact hp)

/-- Helper for `splitGo`: prepend a character to the first piece. -/
def splitConsHead (c : Char) : List Str → List Str
  | [] => [[c]]
  | p :: ps => (c :: p) :: ps

/-- Fuel-driven worker for `splitOnL`; fuel at least the length of the string
makes it total. -/
def splitGo (sep : Str) : Nat → Str → List Str
  | _, [] => [[]]
  | 0, s => [s]
  | fuel + 1, c :: cs =>
    if sep.isPrefixOf (c :: cs) then
      [] :: splitGo sep fuel (List.drop (sep.length - 1) cs)
    else
      splitConsHead c (splitGo sep fuel cs)

/-- Model of JavaScript String.prototype.split with a non-empty literal
separator: scan left to right, cutting at each non-overlapping occurrence.
The worker never splits on an empty separator. -/
def splitOnL (sep s : Str) : List Str :=
  if sep = [] then [s] else splitGo sep s.length s

/-- Shorthand for joining with a newline, the inverse of line splitting. -/
def intercalateNL (ls : List Str) : Str := List.intercalate ['\n'] ls

/-- Model of s.split('\n'). -/
def linesOf (s : Str) : List Str := splitOnL ['\n'] s

/-- Model of JavaScript String.prototype.toLowerCase on the ASCII range
(the only range exercised by the worker's patterns). -/
def lowerL (s : Str) : Str := s.map Char.toLower

/-- Decimal digit character for `d % 10`. -/
def digitChar (d : Nat) : Char := Char.ofNat (48 + d % 10)

/-- Fuel-driven decimal printer worker. -/
def natToCharsGo : Nat → Nat → Str → Str
  | 0, _, acc => acc
  | fuel + 1, n, acc =>
    if n < 10 then digitChar n :: acc
    else natToCharsGo fuel (n / 10) (digitChar (n % 10) :: acc)

/-- Decimal rendering of a natural number, modeling JavaScript number to
string conversion for non-negative integers. -/
def natToChars (n : Nat) : Str := natToCharsGo (n + 1) n []

/-! ## Topic classification (worker.ts: detectNewsletterTopic and friends) -/

/-- NEWSLETTER_TOPIC_MAP from the worker: the static name-to-topic override
map. Every entry in the source is commented out, so the map is empty. -/
def NEWSLETTER_TOPIC_MAP : List (Str × Str) := []

/-- DEFAULT_TOPIC from the worker. -/
def DEFAULT_TOPIC : Str := "General".data

/-- TOPIC_ORDER from the worker: the fixed topic-priority list. -/
def TOPIC_ORDER : List Str :=
  ["Tech".data, "Design".data, "Business".data, "News".data,
   "Culture".data, "General".data]

/-- TOPIC_KEYWORDS from the worker: each rule is the alternative list of one
word-boundary case-insensitive regex together with its topic. -/
def TOPIC_KEYWORDS : List (List Str × Str) :=
  [(["css".data, "design".data, "ux".data, "ui".data, "typography".data,
     "figma".data, "font".data, "layout".data, "visual".data], "Design".data),
   (["ai".data, "startup".data, "developer".data, "engineer".data,
     "code".data, "programming".data, "tech".data, "software".data,
     "api".data, "cloud".data, "saas".data], "Tech".data),
   (["market".data, "financ".data, "econom".data, "invest".data,
     "revenue".data, "business".data, "strateg".data], "Business".data),
   (["breaking".data, "politic".data, "world".data, "daily briefing".data,
     "headline".data, "report".data], "News".data),
   (["culture".data, "media".data, "social".data, "community".data,
     "internet".data, "meme".data, "podcast".data], "Culture".data)]

/-- Word character test for the JavaScript `\w` class. -/
def isWordChar (c : Char) : Bool :=
  ('a' ≤ c && c ≤ 'z') || ('A' ≤ c && c ≤ 'Z') || ('0' ≤ c && c ≤ '9') || c = '_'

/-- Model of RegExp.prototype.test for a pattern of the shape
`\b(k1|k2|...)\b` with the `i` flag: some alternative occurs
case-insensitively with a non-word character (or the string boundary) on both
sides. Every alternative in TOPIC_KEYWORDS begins and ends with a word
character, for which `\b` means exactly this. -/
def wordBoundaryTest (alts : List Str) (s : Str) : Bool :=
  let ls := lowerL s
  (List.range (ls.length + 1)).any fun i =>
    alts.any fun kw =>
      (lowerL kw).isPrefixOf (ls.drop i) &&
      (decide (i = 0) || !isWordChar (ls.getD (i - 1) ' ')) &&
      (decide (ls.length ≤ i + kw.length) || !isWordChar (ls.getD (i + kw.length) ' '))

/-- The keyword fallback loop of detectNewsletterTopic: first matching rule
wins, in list order. -/
def keywordTopic : List (List Str × Str) → Str → Str
  | [], _ => DEFAULT_TOPIC
  | (alts, topic) :: rest, subject =>
    if wordBoundaryTest alts subject then topic else keywordTopic rest subject

/-- Model of detectNewsletterTopic: static map lookup on the lowercased name
(a JavaScript truthiness check, so an empty mapped value would fall through),
then the ordered keyword rules on the subject, then DEFAULT_TOPIC. -/
def detectNewsletterTopic (name subject : Str) : Str :=
  match (NEWSLETTER_TOPIC_MAP.find? fun kv => kv.1 == lowerL name).map (·.2) with
  | some t => if t = [] then keywordTopic TOPIC_KEYWORDS subject else t
  | none => keywordTopic TOPIC_KEYWORDS subject

/-- Model of getTopicEmoji: TOPIC_EMOJI lookup with the mailbox fallback. -/
def getTopicEmoji (t : Str) : Str :=
  if t = "Tech".data then "💻".data
  else if t = "Design".data then "🎨".data
  else if t = "News".data then "📰".data
  else if t = "Business".data then "💼".data
  else if t = "Culture".data then "🌍".data
  else if t = "General".data then "📬".data
  else "📬".data

/-! ## Dates (worker.ts: formatDate) -/

/-- The calendar fields of a JavaScript Date that formatDate reads (via
toISOString). -/
structure JsDate where
  year : Nat
  month : Nat
  day : Nat
deriving DecidableEq

/-- Zero-pad a decimal rendering to width `w`, as toISOString does. -/
def padNum (w n : Nat) : Str :=
  let ds := natToChars n
  List.replicate (w - ds.length) '0' ++ ds

/-- Model of formatDate: date.toISOString().split('T')[0], the zero-padded
YYYY-MM-DD date part. -/
def formatDate (dt : JsDate) : Str :=
  padNum 4 dt.year ++ ['-'] ++ padNum 2 dt.month ++ ['-'] ++ padNum 2 dt.day

/-! ## Digest rendering (worker.ts: generateDigestMarkdown) -/

/-- The `\n\n---\n\n` separator placed between entry blocks of one topic
section. -/
def sepMarker : Str := "\n\n---\n\n".data

/-- Rank of a topic in TOPIC_ORDER; the comparator in generateDigestMarkdown
maps an absent topic (indexOf -1) to TOPIC_ORDER.length, exactly
List.findIdx's out-of-list value. -/
def topicRank (t : Str) : Nat := TOPIC_ORDER.findIdx (fun x => x == t)

/-- Stable insertion step: an element is placed before the first element of
equal or larger key, preserving the relative order of equal keys. -/
def insertByKey (key : α → Nat) (x : α) : List α → List α
  | [] => [x]
  | y :: ys => if key x ≤ key y then x :: y :: ys else y :: insertByKey key x ys

/-- Stable sort by a numeric key. Array.prototype.sort is required to be
stable by ECMAScript 2019+, and the comparator of generateDigestMarkdown is
the difference of the two ranks, so the sorted order is exactly the stable
ascending order by rank. -/
def sortByKey (key : α → Nat) : List α → List α
  | [] => []
  | x :: xs => insertByKey key x (sortByKey key xs)

/-- The normalization line of generateDigestMarkdown:
entries.map((_, i) => topics[i] || DEFAULT_TOPIC). An index beyond the topics
array (undefined) and an empty topic string are both falsy and become
DEFAULT_TOPIC. -/
def normalizeTopics (entries topics : List Str) : List Str :=
  (List.range entries.length).map fun i =>
    if topics.getD i [] = [] then DEFAULT_TOPIC else topics.getD i []

/-- The sorted index permutation of generateDigestMarkdown. -/
def digestSortIdx (entries topics : List Str) : List Nat :=
  sortByKey (fun i => topicRank ((normalizeTopics entries topics).getD i []))
    (List.range entries.length)

/-- Model of generateDigestMarkdown. The Map-based grouping of the source is
read back only via grouped.get(topic) for topic in TOPIC_ORDER, which is the
same as filtering the sorted (topic, entry) pairs per topic; both preserve
the per-topic order of the sorted list. An emailIds array shorter than
entries would render the JavaScript string "undefined"; the model renders the
empty string there, and no claim exercises that case. -/
def generateDigestMarkdown (date : JsDate) (entries emailIds topics : List Str) : Str :=
  let dateStr := formatDate date
  let normalizedTopics := normalizeTopics entries topics
  let indices := digestSortIdx entries topics
  let sortedEntries := indices.map fun i => entries.getD i []
  let sortedEmailIds := indices.map fun i => emailIds.getD i []
  let sortedTopics := indices.map fun i => normalizedTopics.getD i []
  let frontmatter :=
    "---\ntags:\n  - newsletter\n  - digest\ncreated: ".data ++ dateStr ++
    "\nnewsletter_count: ".data ++ natToChars sortedEntries.length ++
    "\nemail_ids:\n".data ++
    intercalateNL (sortedEmailIds.map fun id => "  - ".data ++ id) ++
    "\nemail_topics:\n".data ++
    intercalateNL (sortedTopics.map fun t => "  - ".data ++ t) ++
    "\n---".data
  let sections := TOPIC_ORDER.filterMap fun topic =>
    let topicEntries := (sortedTopics.zip sortedEntries).filterMap fun p =>
      if p.1 = topic then some p.2 else none
    if topicEntries = [] then none
    else some ("## ".data ++ getTopicEmoji topic ++ [' '] ++ topic ++
               "\n\n".data ++ List.intercalate sepMarker topicEntries)
  frontmatter ++ "\n\n# Newsletter Digest — ".data ++ dateStr ++ "\n\n".data ++
    List.intercalate "\n\n".data sections ++ "\n".data

/-! ## Digest parsing (worker.ts: parseDigestMarkdown) -/

/-- Model of the frontmatter item regex line.match(/^\s+-\s+(.+)$/), returning
the captured group. The lines passed in contain no newline. The leading `\s+`
forces the dash to be the first non-whitespace character; the second `\s+` is
greedy and backtracks just enough to leave at least one character for the
capture, so the capture is everything after the whitespace run following the
dash — except when nothing but whitespace follows, where backtracking leaves
exactly the last character. -/
def itemMatchL (line : Str) : Option Str :=
  let w := line.takeWhile isSpaceJS
  if w.length = 0 then none
  else
    match line.drop w.length with
    | [] => none
    | c :: rest =>
      if c = '-' then
        match rest with
        | [] => none
        | d :: rest2 =>
          if isSpaceJS d then
            let cap := rest.dropWhile isSpaceJS
            if cap = [] then
              if h : rest2 = [] then none
              else some [(d :: rest2).getLast (by simp)]
            else some cap
          else none
      else none

/-- State of the frontmatter list loop of parseDigestMarkdown: which of the
two lists currentList points at (if any), plus the lists collected so far. -/
structure FmState where
  mode : Option Bool
  ids : List Str
  topics : List Str

/-- One iteration of the frontmatter line loop. -/
def fmStep (st : FmState) (line : Str) : FmState :=
  if trimL line = "email_ids:".data then ⟨some true, st.ids, st.topics⟩
  else if trimL line = "email_topics:".data then ⟨some false, st.ids, st.topics⟩
  else
    match st.mode with
    | none => st
    | some b =>
      match itemMatchL line with
      | some v =>
        if b then ⟨st.mode, st.ids ++ [v], st.topics⟩
        else ⟨st.mode, st.ids, st.topics ++ [v]⟩
      | none => ⟨none, st.ids, st.topics⟩

/-- The email_ids / email_topics lists collected from the frontmatter body. -/
def parseFrontmatterLists (fm : Str) : List Str × List Str :=
  let fin := (linesOf fm).foldl fmStep ⟨none, [], []⟩
  (fin.ids, fin.topics)

/-- The literal `# Newsletter Digest — ` line prefix. -/
def titleMarker : Str := "# Newsletter Digest — ".data

/-- Model of content.match(/^# Newsletter Digest — .+\n\n([\s\S]*)$/m) over
the line decomposition of the content: the first line that extends the title
marker and is followed by an empty line that is itself newline-terminated.
`.+` cannot cross the newline, so the match fixes exactly such a line. -/
def findTitleIdx (ls : List Str) : Option Nat :=
  (List.range ls.length).find? fun i =>
    titleMarker.isPrefixOf (ls.getD i []) &&
    decide (titleMarker.length < (ls.getD i []).length) &&
    decide (i + 2 < ls.length) &&
    (ls.getD (i + 1) [' ']).isEmpty

/-- Model of the test /^## .+ \S+$/m on one line: after `## `, a non-empty
prefix, a space, and a non-empty all-non-whitespace suffix. Such a suffix
admits no later whitespace, so the separating space is the last space of the
line. -/
def isTopicHeaderTest (l : Str) : Bool :=
  "## ".data.isPrefixOf l &&
  (let m := l.drop 3
   (List.range m.length).any fun j =>
     decide ((m.getD j ' ') = ' ') && decide (1 ≤ j) &&
     decide (j + 1 ≤ m.length - 1) &&
     ((m.drop (j + 1)).all fun c => !isSpaceJS c) &&
     !(m.drop (j + 1)).isEmpty)

/-- Model of one match of /^## .+ (.+)$/gm on a line, returning the capture:
the greedy `.+` takes as much as possible, so the capture is the suffix after
the last space that still leaves the capture non-empty and at least one
character before the space. -/
def sectionHeaderCapture (l : Str) : Option Str :=
  if "## ".data.isPrefixOf l then
    let m := l.drop 3
    match ((List.range m.length).filter fun j =>
        decide ((m.getD j '#') = ' ') && decide (1 ≤ j) &&
        decide (j + 1 < m.length)).getLast? with
    | some j => some (m.drop (j + 1))
    | none => none
  else none

/-- Indices of the body lines on which /^## .+ (.+)$/gm matches; these are the
match.index values of the exec loop, in line units. -/
def sectionHeaderIdxs (ls : List Str) : List Nat :=
  (List.range ls.length).filter fun i => (sectionHeaderCapture (ls.getD i [])).isSome

/-- The (topic, sectionBody) pairs of the exec-and-slice loop of
parseDigestMarkdown. body.slice(start, nextStart) reaches up to the character
before the next `##`, i.e. through the newline that ends the previous line,
hence the extra trailing newline on every section except the last. -/
def buildSections (ls : List Str) : List (Str × Str) :=
  (List.range (sectionHeaderIdxs ls).length).map fun k =>
    ((sectionHeaderCapture (ls.getD ((sectionHeaderIdxs ls).getD k 0) [])).getD [],
     if k + 1 < (sectionHeaderIdxs ls).length then
       intercalateNL ((ls.drop ((sectionHeaderIdxs ls).getD k 0)).take
         ((sectionHeaderIdxs ls).getD (k + 1) 0 - (sectionHeaderIdxs ls).getD k 0)) ++ ['\n']
     else
       intercalateNL (ls.drop ((sectionHeaderIdxs ls).getD k 0)))

/-- Model of sectionBody.replace(/^## .+\n\n/, ''): drop the leading header
line and the following empty line when the section starts that way. -/
def stripSectionHeader (sec : Str) : Str :=
  match linesOf sec with
  | l1 :: l2 :: rest =>
    if "## ".data.isPrefixOf l1 && decide (3 < l1.length) && l2.isEmpty &&
        decide (rest ≠ []) then
      intercalateNL rest
    else sec
  | _ => sec

/-- Result record of parseDigestMarkdown. -/
structure DigestParse where
  entries : List Str
  emailIds : List Str
  topics : List Str
deriving DecidableEq

/-- The frontmatter phase of parseDigestMarkdown. The frontmatter regex
(anchored start, opening fence, then the non-greedy group closed by a newline
and three dashes) takes the shortest prefix closed by a `\n---`, i.e.
everything before the first occurrence of `\n---` after the opening fence. -/
def parseFmPair (content : Str) : List Str × List Str :=
  if "---\n".data.isPrefixOf content then
    let parts := splitOnL "\n---".data (content.drop 4)
    if 2 ≤ parts.length then parseFrontmatterLists (parts.getD 0 []) else ([], [])
  else ([], [])

/-- The body phase of parseDigestMarkdown, after the title match: on a hit at
line i the body is the join of the lines below the title and its blank line,
split into topic sections when a topic header is present, and split on the
entry separator as legacy content otherwise. -/
def parsePairsAux (ls : List Str) : Option Nat → List (Str × Option Str)
  | none => []
  | some i =>
    if (linesOf (intercalateNL (ls.drop (i + 2)))).any isTopicHeaderTest then
      (buildSections (linesOf (intercalateNL (ls.drop (i + 2))))).flatMap fun tp =>
        (splitOnL sepMarker (stripSectionHeader tp.2)).filterMap fun raw =>
          if trimL raw = [] then none else some (trimL raw, some tp.1)
    else
      (splitOnL sepMarker (intercalateNL (ls.drop (i + 2)))).filterMap fun raw =>
        if trimL raw = [] then none else some (trimL raw, (none : Option Str))

/-- The body phase of parseDigestMarkdown: the (entry, topic?) pairs pulled
from the topic sections, or from the legacy separator split when no topic
header is present. -/
def parsePairs (content : Str) : List (Str × Option Str) :=
  parsePairsAux (linesOf content) (findTitleIdx (linesOf content))

/-- Model of parseDigestMarkdown, combining the frontmatter and body phases
exactly as the source function body does. -/
def parseDigestMarkdown (content : Str) : DigestParse :=
  let fmPair := parseFmPair content
  let emailIds := fmPair.1
  let fmTopics := fmPair.2
  let pairs := parsePairs content
  let entries := pairs.map (·.1)
  let parsedTopics := pairs.filterMap (·.2)
  let topics :=
    if fmTopics ≠ [] then fmTopics
    else if parsedTopics ≠ [] then parsedTopics
    else entries.map fun _ => DEFAULT_TOPIC
  ⟨entries, emailIds, topics⟩

/-! ## Digest merge (worker.ts: generateDigestEntry, appendToDigest) -/

/-- The fields of ParsedEmail that the digest path reads. The source type has
further fields (attachments, raw HTML, source, ...) that the digest merge
never touches. -/
structure ParsedEmailM where
  messageId : Str
  fromName : Str
  fromEmail : Str
  subject : Str
  body : Str
  newsletterName : Str
  topic : Option Str
  date : JsDate
deriving DecidableEq

/-- Model of generateDigestEntry. JavaScript truthiness: an empty
newsletterName falls back to the sender name, a null or empty readUrl omits
the link line, an empty body omits the excerpt block. -/
def generateDigestEntry (p : ParsedEmailM) (readUrl : Option Str) : Str :=
  let newsletterName := if p.newsletterName = [] then p.fromName else p.newsletterName
  let linkLine :=
    match readUrl with
    | some u => if u = [] then [] else "[Read full newsletter →](".data ++ u ++ ")".data
    | none => ([] : Str)
  let excerptBlock :=
    if p.body = [] then ([] : Str)
    else intercalateNL ((splitOnL ['\n'] p.body).map fun l => "> ".data ++ l)
  let base := "### ".data ++ newsletterName ++ " — ".data ++ p.subject ++
    "\n**From:** ".data ++ p.fromEmail
  let withLink := if linkLine = [] then base else base ++ ['\n'] ++ linkLine
  if excerptBlock = [] then withLink else withLink ++ "\n\n".data ++ excerptBlock

/-- Outcome of one appendToDigest call: either the dedup early return (no
storage write happens) or a write of the re-rendered document. The source
function has no failure path: parseDigestMarkdown is total and appendToDigest
unconditionally proceeds with whatever it extracted. -/
inductive MergeResult
  | noWrite
  | write (content : Str)
deriving DecidableEq

/-- Model of appendToDigest restricted to its content logic: `existing` is
what the R2 read returned (none when the object is absent), and the write
carries the body that would be put back. Path construction and R2 metadata
are storage-side concerns outside the content model. -/
def appendToDigest (existing : Option Str) (p : ParsedEmailM) (readUrl : Option Str) :
    MergeResult :=
  let parsed :=
    match existing with
    | some content => parseDigestMarkdown content
    | none => ⟨[], [], []⟩
  if p.messageId ∈ parsed.emailIds then MergeResult.noWrite
  else
    let newEntry := generateDigestEntry p readUrl
    let topic := match p.topic with
      | some t => if t = [] then DEFAULT_TOPIC else t
      | none => DEFAULT_TOPIC
    MergeResult.write (generateDigestMarkdown p.date (parsed.entries ++ [newEntry])
      (parsed.emailIds ++ [p.messageId]) (parsed.topics ++ [topic]))

/-- The storage content after acting on a merge result: unchanged on noWrite,
replaced on write. -/
def applyMerge (existing : Option Str) : MergeResult → Option Str
  | MergeResult.noWrite => existing
  | MergeResult.write m => some m

/-! ## Excerpt extraction (worker.ts: extractNewsletterExcerpt) -/

/-- Apostrophe character, kept out of string literals. -/
def apos : Char := Char.ofNat 39

/-- The two alternatives of the receiving-this boilerplate regex. -/
def phraseReceiving : List Str :=
  ["you".data ++ [apos] ++ "re receiving this".data, "you are receiving this".data]

/-- Cut `s` at the first position where one of the phrases matches
case-insensitively, dropping everything from there on; models
replace of a case-insensitive phrase followed by the rest of the input
with the empty string. -/
def cutFromFirst (phrases : List Str) : Str → Str
  | [] => []
  | c :: cs =>
    if phrases.any fun p => (lowerL p).isPrefixOf (lowerL (c :: cs)) then []
    else c :: cutFromFirst phrases cs

/-- Fuel-driven worker for collapsing newline runs. -/
def cnGo : Nat → Str → Str
  | 0, s => s
  | _, [] => []
  | fuel + 1, c :: cs =>
    if c = '\n' then
      let run := 1 + (cs.takeWhile fun x => x = '\n').length
      (if 3 ≤ run then "\n\n".data else List.replicate run '\n') ++
        cnGo fuel (cs.drop (run - 1))
    else c :: cnGo fuel cs

/-- Model of replace of three-or-more newlines (global) with exactly two:
each maximal newline run of length at least 3 becomes 2. -/
def collapseNewlines (s : Str) : Str := cnGo s.length s

/-- Model of String.prototype.lastIndexOf for a pattern: the greatest
occurrence position, if any. -/
def lastIdxOfSub (pat s : Str) : Option Nat :=
  ((List.range s.length).filter fun i => pat.isPrefixOf (s.drop i)).getLast?

/-- The ellipsis marker appended on a hard truncation. -/
def ELLIPSIS : Str := "...".data

/-- The boilerplate stripping, newline normalization and trim that
extractNewsletterExcerpt applies before measuring the length. -/
def cleanedExcerptText (text : Str) : Str :=
  let c1 := cutFromFirst phraseReceiving text
  let c2 := cutFromFirst ["unsubscribe".data] c1
  let c3 := cutFromFirst ["update your preferences".data] c2
  trimL (collapseNewlines c3)

/-- Model of extractNewsletterExcerpt. The boundary test
lastSentence > maxLength * 0.5 compares an integer against an exact half, so
it is the integer test maxLength < 2 * lastSentence; a missing boundary
(lastIndexOf -1) always fails the test and falls to the hard truncation. -/
def extractNewsletterExcerpt (text : Str) (maxLength : Nat) : Str :=
  if text = [] then []
  else
    let cleaned := cleanedExcerptText text
    if cleaned.length ≤ maxLength then cleaned
    else
      let truncated := cleaned.take maxLength
      match lastIdxOfSub ". ".data truncated with
      | some i =>
        if maxLength < 2 * i then truncated.take (i + 1) else truncated ++ ELLIPSIS
      | none => truncated ++ ELLIPSIS

/-! ## Newsletter Turndown rules (worker.ts: trackingPixel / trackerImage) -/

/-- An element node as the Turndown filter callbacks see it: a node name and
its attribute list (getAttribute returns null for an absent attribute). -/
structure HtmlNode where
  nodeName : Str
  attrs : List (Str × Str)
deriving DecidableEq

/-- Model of node.getAttribute. -/
def getAttribute (n : HtmlNode) (name : Str) : Option Str :=
  (n.attrs.find? fun kv => kv.1 == name).map (·.2)

/-- Model of the trackingPixel rule filter: an IMG whose explicit width or
height attribute is the string 0 or 1. -/
def trackingPixelFilter (n : HtmlNode) : Bool :=
  if n.nodeName ≠ "IMG".data then false
  else
    let w := getAttribute n "width".data
    let h := getAttribute n "height".data
    w == some "1".data || h == some "1".data || w == some "0".data || h == some "0".data

/-- The trackerPatterns list of the trackerImage rule. -/
def trackerPatterns : List Str :=
  ["open.substack.com".data, "pixel.".data, "track.".data, "beacon.".data,
   "email.mg.".data, "/o.gif".data, "/t.gif".data, "/spacer".data,
   "list-manage.com/track".data]

/-- Model of the trackerImage rule filter: an IMG whose lowercased src
contains one of the tracker patterns. -/
def trackerImageFilter (n : HtmlNode) : Bool :=
  if n.nodeName ≠ "IMG".data then false
  else
    let src := lowerL ((getAttribute n "src".data).getD [])
    trackerPatterns.any fun p => occursInB p src

/-- Model of the newsletter Turndown pass restricted to the img elements of
the document: a rule whose filter matches replaces the node with the empty
string (removing it from the output), and an img matched by neither rule is
rendered by the default image rule, referencing the same node unchanged. The
tree traversal itself belongs to the external turndown collaborator; the
worker owns only the rule set. -/
def sanitizeImages (imgs : List HtmlNode) : List HtmlNode :=
  imgs.filter fun n => !(trackingPixelFilter n || trackerImageFilter n)

/-! ## Specification-side definitions

These follow the wording of the specification (not the source) and are
compared against the source-derived definitions above. -/

/-- Tracker-image characterization in the words of the specification: an
explicit width or height attribute of 0 or 1, or a src matching one of the
known tracker-domain/path substrings (matching is case-insensitive on the
src). -/
def specTrackerImage (n : HtmlNode) : Prop :=
  (getAttribute n "width".data = some "0".data ∨ getAttribute n "width".data = some "1".data ∨
   getAttribute n "height".data = some "0".data ∨ getAttribute n "height".data = some "1".data) ∨
  (∃ p ∈ trackerPatterns, occursPred p (lowerL ((getAttribute n "src".data).getD [])))

instance specTrackerImageDecidable (n : HtmlNode) : Decidable (specTrackerImage n) := by
  unfold specTrackerImage
  infer_instance

/-- Topic classification in the words of the specification: case-insensitive
exact lookup in the static map and immediate return, else the topic of the
first keyword rule (in order) matching the subject, else the default
topic. -/
def specClassify (name subject : Str) : Str :=
  match NEWSLETTER_TOPIC_MAP.find? fun kv => kv.1 == lowerL name with
  | some kv => kv.2
  | none =>
    match TOPIC_KEYWORDS.find? fun r => wordBoundaryTest r.1 subject with
    | some r => r.2
    | none => DEFAULT_TOPIC

/-- Excerpt truncation in the words of the claim, differing from the source
in exactly one place: the sentence boundary qualifies when it is at or after
the 50% mark of maxLength (the source requires strictly after). -/
def specExtractAtOrAfter (text : Str) (maxLength : Nat) : Str :=
  if text = [] then []
  else
    let cleaned := cleanedExcerptText text
    if cleaned.length ≤ maxLength then cleaned
    else
      let truncated := cleaned.take maxLength
      match lastIdxOfSub ". ".data truncated with
      | some i =>
        if maxLength ≤ 2 * i then truncated.take (i + 1) else truncated ++ ELLIPSIS
      | none => truncated ++ ELLIPSIS

/-- The last sentence boundary described positionally: the greatest index j
of the text such that character j is a period and character j+1 a space. -/
def lastBoundaryIdx (s : Str) : Option Nat :=
  ((List.range s.length).filter fun j =>
    decide (j + 1 < s.length) && decide (s.getD j ' ' = '.') &&
    decide (s.getD (j + 1) '.' = ' ')).getLast?

/-! ## Hypothesis predicates for the round-trip development -/

/-- A frontmatter list value that the item regex recovers verbatim: non-empty,
newline-free, and not starting with whitespace (leading whitespace would be
consumed by the greedy run before the capture). -/
def goodItem (x : Str) : Prop :=
  x ≠ [] ∧ '\n' ∉ x ∧ ∀ c, x.head? = some c → isSpaceJS c = false

/-- An entry block whose rendered form parses back as one entry: non-blank
after trimming, never containing a blank line followed by three dashes (which
could complete or start a section separator), and with no line starting like
a section header. -/
def goodEntry (e : Str) : Prop :=
  trimL e ≠ [] ∧ ¬ occursPred "\n\n---".data e ∧ ¬ occursPred "\n## ".data e ∧
  ¬ ("## ".data <+: e)

instance goodItemDecidable (x : Str) : Decidable (goodItem x) := by
  unfold goodItem
  cases x with
  | nil => exact isFalse (fun h => h.1 rfl)
  | cons c cs =>
    refine decidable_of_iff (c :: cs ≠ [] ∧ '\n' ∉ c :: cs ∧ isSpaceJS c = false) ?_
    constructor
    · rintro ⟨h1, h2, h3⟩
      refine ⟨h1, h2, ?_⟩
      intro d hd
      simp only [List.head?_cons, Option.some.injEq] at hd
      rw [← hd]
      exact h3
    · rintro ⟨h1, h2, h3⟩
      exact ⟨h1, h2, h3 c rfl⟩

instance goodEntryDecidable (e : Str) : Decidable (goodEntry e) := by
  unfold goodEntry
  infer_instance

/-! ## Concrete fixtures used by counterexamples and witnesses -/

/-- A malformed stored digest: no frontmatter fence and no digest title, so
parseDigestMarkdown recovers nothing from it. -/
def c2BadDigest : Str := "### Old Entry — Subject\nnot a digest at all".data

/-- The incoming newsletter used in the malformed-digest scenario. -/
def c2Email : ParsedEmailM :=
  ⟨"id-9".data, "Sender".data, "sender@example.com".data, "CSS tricks".data,
   "Body text".data, "Tech Weekly".data, some "Tech".data, ⟨2026, 2, 3⟩⟩

/-- A well-formed one-entry digest for the duplicate-delivery scenario. -/
def c3Digest : Str :=
  generateDigestMarkdown ⟨2026, 2, 3⟩ ["### A — S\n**From:** a@b.com".data]
    ["id-1".data] ["Tech".data]

/-- A redelivery of the message already aggregated in c3Digest. -/
def c3Email : ParsedEmailM :=
  ⟨"id-1".data, "A".data, "a@b.com".data, "S".data, "Body".data, "A".data,
   some "Tech".data, ⟨2026, 2, 3⟩⟩

/-- A 1x1 tracking pixel image node. -/
def c6Tracker : HtmlNode :=
  ⟨"IMG".data, [("width".data, "1".data), ("height".data, "1".data),
    ("src".data, "https://mailer.example.com/o.gif?u=1".data)]⟩

/-- A regular content image node. -/
def c6Normal : HtmlNode :=
  ⟨"IMG".data, [("src".data, "https://example.com/images/cat.jpg".data),
    ("width".data, "600".data)]⟩

/-- The sortedEntries list of generateDigestMarkdown, named for reuse in
statements. -/
def sortedEntriesOf (entries topics : List Str) : List Str :=
  (digestSortIdx entries topics).map fun i => entries.getD i []

/-- The sortedEmailIds list of generateDigestMarkdown. -/
def sortedIdsOf (entries emailIds topics : List Str) : List Str :=
  (digestSortIdx entries topics).map fun i => emailIds.getD i []

/-- The sortedTopics list of generateDigestMarkdown. -/
def sortedTopicsOf (entries topics : List Str) : List Str :=
  (digestSortIdx entries topics).map fun i =>
    (normalizeTopics entries topics).getD i []

/-- The per-topic entry list of the rendering loop of generateDigestMarkdown:
the sorted entries whose sorted topic equals the given topic, in sorted
order. -/
def topicEntriesOf (entries topics : List Str) (topic : Str) : List Str :=
  ((sortedTopicsOf entries topics).zip (sortedEntriesOf entries topics)).filterMap fun p =>
    if p.1 = topic then some p.2 else none

/-- The topics of TOPIC_ORDER that the render emits a section for, each with
its entry list. -/
def presentOf (entries topics : List Str) : List (Str × List Str) :=
  TOPIC_ORDER.filterMap fun t =>
    if topicEntriesOf entries topics t = [] then none
    else some (t, topicEntriesOf entries topics t)

/-- Arrival-order inputs of the two-message header-order scenario: the Design
message arrives first, the Tech message second. -/
def c1Entries : List Str :=
  ["### D — d\n**From:** d@x.com".data, "### T — t\n**From:** t@x.com".data]

/-- The two message ids of the header-order scenario, in arrival order. -/
def c1Ids : List Str := ["id-1".data, "id-2".data]

/-- The two topics of the header-order scenario, in arrival order. -/
def c1Topics : List Str := ["Design".data, "Tech".data]

/-- A digest render whose second entry is whitespace-only, for the round-trip
counterexample. -/
def c4BadRender : Str :=
  generateDigestMarkdown ⟨2026, 2, 3⟩
    ["### A — S\n**From:** a@b.com".data, "   ".data]
    ["id-1".data, "id-2".data] ["Tech".data, "Tech".data]

/-- A digest render whose only entry carries a topic label outside
TOPIC_ORDER. -/
def c5Render : Str :=
  generateDigestMarkdown ⟨2026, 2, 3⟩ ["### S — s\n**From:** s@x.com".data]
    ["id-1".data] ["Sports".data]

/-- The frontmatter line list that generateDigestMarkdown renders, named for
the round-trip development. -/
def fmLinesOf (d cnt : Str) (idsR tpsR : List Str) : List Str :=
  ["tags:".data, "  - newsletter".data, "  - digest".data,
   "created: ".data ++ d, "newsletter_count: ".data ++ cnt,
   "email_ids:".data] ++ (idsR.map fun x => "  - ".data ++ x) ++
  ["email_topics:".data] ++ (tpsR.map fun x => "  - ".data ++ x)

/-- The document template that generateDigestMarkdown instantiates: the
frontmatter block, the title line, and the body, with the data slots
abstracted. -/
def docOf (d cnt : Str) (idsR tpsR : List Str) (body : Str) : Str :=
  "---\ntags:\n  - newsletter\n  - digest\ncreated: ".data ++ d ++
  "\nnewsletter_count: ".data ++ cnt ++ "\nemail_ids:\n".data ++
  intercalateNL (idsR.map fun x => "  - ".data ++ x) ++
  "\nemail_topics:\n".data ++
  intercalateNL (tpsR.map fun x => "  - ".data ++ x) ++
  "\n---".data ++ "\n\n# Newsletter Digest — ".data ++ d ++ "\n\n".data ++
  body ++ "\n".data

/-! # Theorems

First a lemma layer about the string primitives, then the round-trip
development, then the claim theorems. -/

theorem splitGo_fuel_irrel (sep : Str) :
    ∀ f1 f2 s, s.length ≤ f1 → s.length ≤ f2 → splitGo sep f1 s = splitGo sep f2 s := by
  intro f1
  induction f1 with
  | zero =>
    intro f2 s h1 _
    have hs : s = [] := List.length_eq_zero.mp (Nat.le_zero.mp h1)
    subst hs
    cases f2 <;> rfl
  | succ f1 ih =>
    intro f2 s h1 h2
    cases s with
    | nil => cases f2 <;> rfl
    | cons c cs =>
      cases f2 with
      | zero => simp at h2
      | succ f2 =>
        have h1' : cs.length ≤ f1 := by simp at h1; omega
        have h2' : cs.length ≤ f2 := by simp at h2; omega
        simp only [splitGo]
        by_cases hp : sep.isPrefixOf (c :: cs)
        · simp only [hp, if_true]
          have hd : (List.drop (sep.length - 1) cs).length ≤ cs.length := by
            simp [List.length_drop]
          exact congrArg _ (ih f2 _ (le_trans hd h1') (le_trans hd h2'))
        · simp only [hp, if_false]
          exact congrArg (splitConsHead c) (ih f2 cs h1' h2')

theorem splitOnL_nil (sep : Str) : splitOnL sep [] = [[]] := by
  by_cases h : sep = [] <;> simp [splitOnL, h, splitGo]

theorem splitOnL_cons_step (sep : Str) (hsep : sep ≠ []) (c : Char) (cs : Str) :
    splitOnL sep (c :: cs) =
      if sep.isPrefixOf (c :: cs) then
        [] :: splitOnL sep (List.drop (sep.length - 1) cs)
      else splitConsHead c (splitOnL sep cs) := by
  simp only [splitOnL, hsep, if_false, List.length_cons, splitGo]
  by_cases hp : sep.isPrefixOf (c :: cs)
  · simp only [hp, if_true]
    refine congrArg _ (splitGo_fuel_irrel sep _ _ _ ?_ le_rfl)
    simp [List.length_drop]
  · simp [hp]

theorem splitConsHead_ne_nil (c : Char) (l : List Str) : splitConsHead c l ≠ [] := by
  cases l <;> simp [splitConsHead]

theorem splitOnL_ne_nil (sep s : Str) : splitOnL sep s ≠ [] := by
  by_cases hsep : sep = []
  · simp [splitOnL, hsep]
  · induction s with
    | nil => simp [splitOnL_nil]
    | cons c cs ih =>
      rw [splitOnL_cons_step sep hsep]
      by_cases hp : sep.isPrefixOf (c :: cs)
      · simp [hp]
      · simp only [hp, if_false]
        exact splitConsHead_ne_nil c _

theorem splitConsHead_append (c : Char) (l1 l2 : List Str) (h : l1 ≠ []) :
    splitConsHead c (l1 ++ l2) = splitConsHead c l1 ++ l2 := by
  cases l1 with
  | nil => exact absurd rfl h
  | cons p ps => simp [splitConsHead]

theorem splitOnL_append_sep (sep : Str) (hsep : sep ≠ []) :
    ∀ a b : Str, (∀ i < a.length, ¬ sep <+: (a ++ sep ++ b).drop i) →
      splitOnL sep (a ++ sep ++ b) = a :: splitOnL sep b := by
  intro a
  induction a with
  | nil =>
    intro b _
    cases hsep' : sep with
    | nil => exact absurd hsep' hsep
    | cons c rest =>
      rw [← hsep']
      have hshape : sep ++ b = c :: (rest ++ b) := by rw [hsep']; rfl
      simp only [List.nil_append] at *
      rw [hshape, splitOnL_cons_step sep hsep]
      have hp : sep.isPrefixOf (c :: (rest ++ b)) := by
        rw [← hshape]
        exact List.isPrefixOf_iff_prefix.mpr (List.prefix_append sep b)
      simp only [hp, if_true]
      have hlen : sep.length - 1 = rest.length := by rw [hsep']; simp
      rw [hlen, List.drop_left]
  | cons x a2 ih =>
    intro b h
    have h0 : ¬ sep.isPrefixOf (x :: (a2 ++ sep ++ b)) := by
      intro hp
      exact h 0 (by simp) (by simpa using List.isPrefixOf_iff_prefix.mp hp)
    have hshape : (x :: a2) ++ sep ++ b = x :: (a2 ++ sep ++ b) := rfl
    rw [hshape, splitOnL_cons_step sep hsep, if_neg h0,
      ih b (fun i hi => by simpa using h (i + 1) (by simpa using Nat.succ_lt_succ hi))]
    rfl

theorem splitOnL_no_occ (sep : Str) (hsep : sep ≠ []) :
    ∀ s : Str, (∀ i, ¬ sep <+: s.drop i) → splitOnL sep s = [s] := by
  intro s
  induction s with
  | nil => intro _; exact splitOnL_nil sep
  | cons c cs ih =>
    intro h
    have h0 : ¬ sep.isPrefixOf (c :: cs) := by
      intro hp
      exact h 0 (by simpa using List.isPrefixOf_iff_prefix.mp hp)
    rw [splitOnL_cons_step sep hsep, if_neg h0, ih (fun i => by simpa using h (i + 1))]
    rfl

theorem singleton_prefix_iff (c : Char) (t : Str) :
    ([c] <+: t) ↔ t.head? = some c := by
  constructor
  · rintro ⟨u, hu⟩
    subst hu
    rfl
  · intro h
    cases t with
    | nil => simp at h
    | cons x xs =>
      simp only [List.head?_cons, Option.some.injEq] at h
      subst h
      exact ⟨xs, rfl⟩

theorem splitOnL_singleton_append (c : Char) :
    ∀ a b : Str, splitOnL [c] (a ++ [c] ++ b) = splitOnL [c] a ++ splitOnL [c] b := by
  have hsep : ([c] : Str) ≠ [] := by simp
  intro a
  induction a with
  | nil =>
    intro b
    simp only [List.nil_append]
    rw [show ([c] ++ b : Str) = c :: b from rfl, splitOnL_cons_step _ hsep]
    have hp : ([c] : Str).isPrefixOf (c :: b) := by
      exact List.isPrefixOf_iff_prefix.mpr ⟨b, rfl⟩
    simp [hp, splitOnL_nil]
  | cons x a2 ih =>
    intro b
    have hshape : (x :: a2) ++ [c] ++ b = x :: (a2 ++ [c] ++ b) := rfl
    rw [hshape, splitOnL_cons_step _ hsep]
    by_cases hx : x = c
    · subst hx
      have hp : ([x] : Str).isPrefixOf (x :: (a2 ++ [x] ++ b)) :=
        List.isPrefixOf_iff_prefix.mpr ⟨a2 ++ [x] ++ b, rfl⟩
      have hp2 : ([x] : Str).isPrefixOf (x :: a2) :=
        List.isPrefixOf_iff_prefix.mpr ⟨a2, rfl⟩
      rw [if_pos hp, splitOnL_cons_step _ hsep, if_pos hp2]
      have ih' := ih b
      simp only [List.length_cons, List.length_nil, Nat.zero_add, Nat.sub_self,
        List.drop_zero, List.cons_append, List.nil_append] at *
      simp only [List.append_assoc, List.singleton_append] at ih' ⊢
      simp [ih']
    · have hp : ¬ ([c] : Str).isPrefixOf (x :: (a2 ++ [c] ++ b)) := by
        intro hp
        have := (singleton_prefix_iff c _).mp (List.isPrefixOf_iff_prefix.mp hp)
        simp only [List.head?_cons, Option.some.injEq] at this
        exact hx this
      have hp2 : ¬ ([c] : Str).isPrefixOf (x :: a2) := by
        intro hp2
        have := (singleton_prefix_iff c _).mp (List.isPrefixOf_iff_prefix.mp hp2)
        simp only [List.head?_cons, Option.some.injEq] at this
        exact hx this
      rw [if_neg hp, splitOnL_cons_step _ hsep, if_neg hp2, ih,
        splitConsHead_append x _ _ (splitOnL_ne_nil [c] a2)]

theorem intercalateNL_nil : intercalateNL [] = [] := rfl

theorem intercalateNL_single (x : Str) : intercalateNL [x] = x := by
  simp [intercalateNL, List.intercalate]

theorem intercalateNL_cons (x y : Str) (ys : List Str) :
    intercalateNL (x :: y :: ys) = x ++ ['\n'] ++ intercalateNL (y :: ys) := by
  simp [intercalateNL, List.intercalate, List.intersperse]

theorem linesOf_no_nl (s : Str) (h : '\n' ∉ s) : linesOf s = [s] := by
  refine splitOnL_no_occ _ (by simp) _ ?_
  intro i hp
  have hh := (singleton_prefix_iff '\n' _).mp hp
  cases hd : s.drop i with
  | nil => rw [hd] at hh; simp at hh
  | cons x xs =>
    rw [hd] at hh
    simp only [List.head?_cons, Option.some.injEq] at hh
    exact h (List.drop_subset i s (by rw [hd, hh]; exact List.mem_cons_self _ _))

theorem linesOf_append (a b : Str) :
    linesOf (a ++ ['\n'] ++ b) = linesOf a ++ linesOf b :=
  splitOnL_singleton_append '\n' a b

theorem linesOf_intercalate (ls : List Str) (hne : ls ≠ [])
    (h : ∀ l ∈ ls, '\n' ∉ l) : linesOf (intercalateNL ls) = ls := by
  induction ls with
  | nil => exact absurd rfl hne
  | cons x rest ih =>
    cases rest with
    | nil => rw [intercalateNL_single, linesOf_no_nl x (h x (by simp))]
    | cons y ys =>
      rw [intercalateNL_cons, linesOf_append,
        linesOf_no_nl x (h x (by simp)),
        ih (by simp) (fun l hl => h l (List.mem_cons_of_mem x hl))]
      rfl

theorem dropWhile_append_all (p : Char → Bool) (u v : Str)
    (hu : ∀ c ∈ u, p c = true) : (u ++ v).dropWhile p = v.dropWhile p := by
  induction u with
  | nil => rfl
  | cons c u2 ih =>
    simp only [List.cons_append, List.dropWhile_cons, hu c (by simp), if_true]
    exact ih fun c hc => hu c (List.mem_cons_of_mem _ hc)

theorem dropWhile_append_ne_nil (p : Char → Bool) (u v : Str)
    (hu : u.dropWhile p ≠ []) : (u ++ v).dropWhile p = u.dropWhile p ++ v := by
  induction u with
  | nil => exact absurd rfl hu
  | cons c u2 ih =>
    by_cases hc : p c
    · simp only [List.dropWhile_cons, hc, if_true] at hu
      simp only [List.cons_append, List.dropWhile_cons, hc, if_true]
      exact ih hu
    · simp only [List.cons_append, List.dropWhile_cons, hc, if_false]
      simp [List.dropWhile_cons, hc]

theorem dropWhile_append_last (p : Char → Bool) (u : Str) (c : Char)
    (hc : p c = false) : ∃ u2, (u ++ [c]).dropWhile p = u2 ++ [c] := by
  induction u with
  | nil => exact ⟨[], by simp [List.dropWhile_cons, hc]⟩
  | cons x u2 ih =>
    by_cases hx : p x
    · obtain ⟨w, hw⟩ := ih
      exact ⟨w, by simp [List.dropWhile_cons, hx, hw]⟩
    · exact ⟨x :: u2, by simp [List.dropWhile_cons, hx]⟩

theorem trimL_append_ws (s t : Str) (ht : ∀ c ∈ t, isSpaceJS c = true) :
    trimL (s ++ t) = trimL s := by
  unfold trimL
  by_cases hs : s.dropWhile isSpaceJS = []
  · have hall : ∀ c ∈ s, isSpaceJS c = true := List.dropWhile_eq_nil_iff.mp hs
    have h2 : t.dropWhile isSpaceJS = [] := List.dropWhile_eq_nil_iff.mpr ht
    rw [dropWhile_append_all _ s t hall, hs, h2]
  · rw [dropWhile_append_ne_nil _ s t hs, List.reverse_append,
      dropWhile_append_all _ t.reverse _ (fun c hc => ht c (by simpa using hc))]

theorem trimL_ws_prefix (t s : Str) (ht : ∀ c ∈ t, isSpaceJS c = true) :
    trimL (t ++ s) = trimL s := by
  unfold trimL
  rw [dropWhile_append_all _ t s ht]

theorem trimL_head (c : Char) (hc : isSpaceJS c = false) (s : Str) :
    ∃ u, trimL (c :: s) = c :: u := by
  unfold trimL
  rw [List.dropWhile_cons, hc]
  simp only [Bool.false_eq_true, if_false, List.reverse_cons]
  obtain ⟨u2, hu2⟩ := dropWhile_append_last isSpaceJS s.reverse c hc
  exact ⟨u2.reverse, by rw [hu2]; simp⟩

theorem occursInB_iff (pat s : Str) : occursInB pat s = true ↔ occursPred pat s := by
  induction s with
  | nil =>
    simp only [occursInB, occursPred, List.isEmpty_iff]
    constructor
    · intro h; exact ⟨0, by simp [h]⟩
    · rintro ⟨i, hi⟩
      simpa using List.prefix_nil.mp (by simpa using hi)
  | cons c cs ih =>
    simp only [occursInB, Bool.or_eq_true, occursPred]
    constructor
    · rintro (h | h)
      · exact ⟨0, by simpa using List.isPrefixOf_iff_prefix.mp h⟩
      · obtain ⟨i, hi⟩ := ih.mp h
        exact ⟨i + 1, by simpa using hi⟩
    · rintro ⟨i, hi⟩
      cases i with
      | zero =>
        refine Or.inl (List.isPrefixOf_iff_prefix.mpr ?_)
        simpa using hi
      | succ j => exact Or.inr (ih.mpr ⟨j, by simpa using hi⟩)

theorem digitChar_props (d : Nat) :
    digitChar d ≠ '\n' ∧ digitChar d ≠ '-' ∧ digitChar d ≠ '#' ∧
    isSpaceJS (digitChar d) = false := by
  unfold digitChar
  have h10 : d % 10 < 10 := Nat.mod_lt _ (by norm_num)
  revert h10
  generalize d % 10 = r
  intro h10
  interval_cases r <;> exact ⟨by decide, by decide, by decide, by decide⟩

theorem mem_natToCharsGo (fuel : Nat) :
    ∀ n acc c, c ∈ natToCharsGo fuel n acc → c ∈ acc ∨ ∃ d, c = digitChar d := by
  induction fuel with
  | zero => intro n acc c h; exact Or.inl h
  | succ fuel ih =>
    intro n acc c h
    simp only [natToCharsGo] at h
    by_cases hn : n < 10
    · rw [if_pos hn] at h
      rcases List.mem_cons.mp h with h | h
      · exact Or.inr ⟨n, h⟩
      · exact Or.inl h
    · rw [if_neg hn] at h
      rcases ih _ _ _ h with h | h
      · rcases List.mem_cons.mp h with h | h
        · exact Or.inr ⟨n % 10, h⟩
        · exact Or.inl h
      · exact Or.inr h

theorem mem_natToChars (n : Nat) (c : Char) (h : c ∈ natToChars n) :
    ∃ d, c = digitChar d := by
  rcases mem_natToCharsGo (n + 1) n [] c h with h | h
  · simp at h
  · exact h

theorem natToCharsGo_longer (fuel : Nat) :
    ∀ n acc, 0 < fuel → acc.length < (natToCharsGo fuel n acc).length := by
  induction fuel with
  | zero => intro n acc h; simp at h
  | succ fuel ih =>
    intro n acc _
    simp only [natToCharsGo]
    by_cases hn : n < 10
    · simp [hn]
    · rw [if_neg hn]
      cases fuel with
      | zero => simp [natToCharsGo]
      | succ f =>
        have := ih (n / 10) (digitChar (n % 10) :: acc) (by simp)
        simp only [List.length_cons] at this
        omega

theorem natToChars_ne_nil (n : Nat) : natToChars n ≠ [] := by
  intro h
  have := natToCharsGo_longer (n + 1) n [] (by simp)
  rw [show natToCharsGo (n + 1) n [] = natToChars n from rfl, h] at this
  simp at this

/-! ## Support lemmas for the tracker-image and classifier claims -/

theorem trackerFilters_iff (n : HtmlNode) (himg : n.nodeName = "IMG".data) :
    (trackingPixelFilter n || trackerImageFilter n) = true ↔ specTrackerImage n := by
  unfold trackingPixelFilter trackerImageFilter specTrackerImage
  simp only [himg, ne_eq, not_true_eq_false, if_false, Bool.or_eq_true,
    beq_iff_eq, List.any_eq_true, occursInB_iff]
  tauto

theorem keywordTopic_eq_find (subject : Str) :
    ∀ rules : List (List Str × Str),
      keywordTopic rules subject =
        ((rules.find? fun r => wordBoundaryTest r.1 subject).map (·.2)).getD DEFAULT_TOPIC := by
  intro rules
  induction rules with
  | nil => rfl
  | cons r rest ih =>
    obtain ⟨alts, topic⟩ := r
    by_cases h : wordBoundaryTest alts subject = true
    · simp [keywordTopic, h, List.find?_cons]
    · simp only [Bool.not_eq_true] at h
      simp [keywordTopic, h, List.find?_cons, ih]

/-! ## Support lemmas for the excerpt claims -/

theorem prefix_two_iff (a b : Char) (da db : Char) (s : Str) (i : Nat) :
    ([a, b] <+: s.drop i) ↔
      (i + 1 < s.length ∧ s.getD i da = a ∧ s.getD (i + 1) db = b) := by
  constructor
  · rintro ⟨u, hu⟩
    have hlen : (s.drop i).length = s.length - i := List.length_drop i s
    rw [← hu] at hlen
    simp only [List.cons_append, List.nil_append, List.length_cons] at hlen
    have hb : i + 1 < s.length := by omega
    have h0 : s[i]? = some a := by
      have h2 := List.getElem?_drop s i 0
      rw [← hu] at h2
      simpa using h2.symm
    have h1 : s[i + 1]? = some b := by
      have h2 := List.getElem?_drop s i 1
      rw [← hu] at h2
      simpa using h2.symm
    refine ⟨hb, ?_, ?_⟩
    · rw [List.getD_eq_getElem?_getD, h0]; rfl
    · rw [List.getD_eq_getElem?_getD, h1]; rfl
  · rintro ⟨hb, ha, hbb⟩
    have hlen : (s.drop i).length = s.length - i := List.length_drop i s
    cases ht : s.drop i with
    | nil => rw [ht] at hlen; simp at hlen; omega
    | cons x xs =>
      cases hxs : xs with
      | nil =>
        rw [ht, hxs] at hlen
        simp at hlen
        omega
      | cons y ys =>
        have h0 : s[i]? = some x := by
          have h2 := List.getElem?_drop s i 0
          rw [ht] at h2
          simpa using h2.symm
        have h1 : s[i + 1]? = some y := by
          have h2 := List.getElem?_drop s i 1
          rw [ht, hxs] at h2
          simpa using h2.symm
        have hx : x = a := by
          rw [List.getD_eq_getElem?_getD, h0] at ha
          simpa using ha
        have hy : y = b := by
          rw [List.getD_eq_getElem?_getD, h1] at hbb
          simpa using hbb
        refine ⟨ys, ?_⟩
        simp [hx, hy]

theorem lastIdxOfSub_eq_lastBoundary (s : Str) :
    lastIdxOfSub ". ".data s = lastBoundaryIdx s := by
  unfold lastIdxOfSub lastBoundaryIdx
  refine congrArg _ (List.filter_congr ?_)
  intro i _
  apply Bool.eq_iff_iff.mpr
  rw [show (". ".data : Str) = ['.', ' '] from rfl]
  simp only [List.isPrefixOf_iff_prefix, Bool.and_eq_true, decide_eq_true_eq]
  rw [prefix_two_iff '.' ' ' ' ' '.' s i]
  tauto

theorem lastBoundaryIdx_lt (s : Str) (i : Nat) (h : lastBoundaryIdx s = some i) :
    i + 1 < s.length := by
  unfold lastBoundaryIdx at h
  have hm := List.mem_of_mem_getLast? h
  have := (List.mem_filter.mp hm).2
  simp only [Bool.and_eq_true, decide_eq_true_eq] at this
  exact this.1.1

/-! ## Claim theorems: excerpt extraction -/

/-- C9: for every input text and every maxLength N, the excerpt extractor
returns a string whose length is at most N plus the length of the ellipsis
marker. -/
theorem C9_excerpt_length_bound (text : Str) (maxLength : Nat) :
    (extractNewsletterExcerpt text maxLength).length ≤ maxLength + ELLIPSIS.length := by
  unfold extractNewsletterExcerpt
  by_cases ht : text = []
  · simp [ht]
  · simp only [ht, if_false]
    by_cases hc : (cleanedExcerptText text).length ≤ maxLength
    · simpa [hc] using le_trans hc (Nat.le_add_right _ _)
    · simp only [hc, if_false]
      cases hfind : lastIdxOfSub ". ".data ((cleanedExcerptText text).take maxLength) with
      | none =>
        simp only [List.length_append, List.length_take]
        omega
      | some i =>
        by_cases hcmp : maxLength < 2 * i
        · simp only [hcmp, if_true, List.length_take]
          omega
        · simp only [hcmp, if_false, List.length_append, List.length_take]
          omega

/-- C7 counterexample: at the concrete input below the cleaned text has
length 14 > 10 and the last sentence boundary of the first 10 characters sits
exactly at the 50% mark (index 5). The claim (boundary qualifies at or after
the 50% mark) predicts truncation at the period, but the source requires the
boundary strictly after the mark and hard-truncates with an ellipsis. -/
theorem C7_boundary_counterexample :
    extractNewsletterExcerpt "abcde. fghijkl".data 10 = "abcde. fgh...".data ∧
    specExtractAtOrAfter "abcde. fghijkl".data 10 = "abcde.".data ∧
    extractNewsletterExcerpt "abcde. fghijkl".data 10 ≠
      specExtractAtOrAfter "abcde. fghijkl".data 10 := by
  refine ⟨by decide, by decide, by decide⟩

/-- C7 amended: for input whose cleaned form exceeds maxLength, the extractor
takes the first maxLength characters and finds the last period-space
occurrence there (characterized positionally); if that boundary lies strictly
after the 50% mark of maxLength it truncates there keeping the period,
otherwise (including when there is no boundary) it hard-truncates at
maxLength and appends the ellipsis marker. -/
theorem C7_excerpt_boundary (text : Str) (N : Nat) (h0 : text ≠ [])
    (hlong : N < (cleanedExcerptText text).length) :
    (lastIdxOfSub ". ".data ((cleanedExcerptText text).take N) =
      lastBoundaryIdx ((cleanedExcerptText text).take N)) ∧
    (∀ i, lastBoundaryIdx ((cleanedExcerptText text).take N) = some i →
      (N < 2 * i →
        extractNewsletterExcerpt text N = ((cleanedExcerptText text).take N).take (i + 1)) ∧
      (2 * i ≤ N →
        extractNewsletterExcerpt text N = (cleanedExcerptText text).take N ++ ELLIPSIS)) ∧
    (lastBoundaryIdx ((cleanedExcerptText text).take N) = none →
      extractNewsletterExcerpt text N = (cleanedExcerptText text).take N ++ ELLIPSIS) := by
  have heq := lastIdxOfSub_eq_lastBoundary ((cleanedExcerptText text).take N)
  refine ⟨heq, ?_, ?_⟩
  · intro i hi
    constructor
    · intro hcmp
      unfold extractNewsletterExcerpt
      rw [if_neg h0, if_neg (by omega)]
      simp only [heq, hi]
      rw [if_pos hcmp]
    · intro hcmp
      unfold extractNewsletterExcerpt
      rw [if_neg h0, if_neg (by omega)]
      simp only [heq, hi]
      rw [if_neg (by omega)]
  · intro hi
    unfold extractNewsletterExcerpt
    rw [if_neg h0, if_neg (by omega)]
    simp only [heq, hi]

/-- C7 witness: the amended theorem applied at a concrete input, landing in
the hard-truncation branch because the boundary is exactly at the mark. -/
theorem C7_excerpt_boundary_witness :
    extractNewsletterExcerpt "abcde. fghijkl".data 10 =
      ("abcde. fghijkl".data.take 10 ++ ELLIPSIS) := by
  have h := C7_excerpt_boundary "abcde. fghijkl".data 10 (by decide) (by decide)
  have h5 : lastBoundaryIdx (("abcde. fghijkl".data : Str).take 10) = some 5 := by decide
  have hcl : cleanedExcerptText "abcde. fghijkl".data = "abcde. fghijkl".data := by decide
  rw [hcl] at h
  exact (h.2.1 5 h5).2 (by omega)

/-! ## Claim theorems: topic classification -/

/-- C8: topic classification agrees everywhere with the specification order
(case-insensitive static map lookup first, then the first matching ordered
word-boundary keyword rule on the subject, then the default topic), and the
Design Weekly scenario classifies as Design via the css keyword. -/
theorem C8_classification :
    (∀ name subject, detectNewsletterTopic name subject = specClassify name subject) ∧
    detectNewsletterTopic "Design Weekly".data "Issue #47: CSS Tips".data = "Design".data := by
  constructor
  · intro name subject
    unfold detectNewsletterTopic specClassify
    simp only [NEWSLETTER_TOPIC_MAP, List.find?_nil, Option.map_none]
    rw [keywordTopic_eq_find subject TOPIC_KEYWORDS]
    cases TOPIC_KEYWORDS.find? fun r => wordBoundaryTest r.1 subject <;> rfl
  · decide

/-! ## Claim theorems: tracking pixels -/

/-- C6: an img element with width or height attribute 0 or 1, or whose src
contains a known tracker substring, is removed by the newsletter Turndown
rules; every other img element is kept unchanged. -/
theorem C6_tracker_images (imgs : List HtmlNode) (n : HtmlNode) (hmem : n ∈ imgs)
    (himg : n.nodeName = "IMG".data) :
    (specTrackerImage n → n ∉ sanitizeImages imgs) ∧
    (¬ specTrackerImage n → n ∈ sanitizeImages imgs) := by
  constructor
  · intro hs hmem2
    have h2 := (List.mem_filter.mp hmem2).2
    rw [Bool.not_eq_eq_eq_not, Bool.not_true] at h2
    exact absurd ((trackerFilters_iff n himg).mpr hs) (by simp [h2])
  · intro hs
    refine List.mem_filter.mpr ⟨hmem, ?_⟩
    have hfb : (trackingPixelFilter n || trackerImageFilter n) = false := by
      cases htr : (trackingPixelFilter n || trackerImageFilter n) with
      | false => rfl
      | true => exact absurd ((trackerFilters_iff n himg).mp htr) hs
    simp [hfb]

/-- C6 witness: the theorem applied to a concrete pair of images, removing
the 1x1 tracker and keeping the content image. -/
theorem C6_tracker_images_witness :
    c6Tracker ∉ sanitizeImages [c6Tracker, c6Normal] ∧
    c6Normal ∈ sanitizeImages [c6Tracker, c6Normal] := by
  constructor
  · exact (C6_tracker_images [c6Tracker, c6Normal] c6Tracker (by decide) (by decide)).1
      (by decide)
  · exact (C6_tracker_images [c6Tracker, c6Normal] c6Normal (by decide) (by decide)).2
      (by decide)

/-! ## Claim theorems: digest merge -/

/-- C3: merging an entry whose message id is already in the stored digest's
id set is a silent no-op: the merge reports that no write is required and the
stored document is left exactly as it was. -/
theorem C3_duplicate_noop (D : Str) (p : ParsedEmailM) (readUrl : Option Str)
    (h : p.messageId ∈ (parseDigestMarkdown D).emailIds) :
    appendToDigest (some D) p readUrl = MergeResult.noWrite ∧
    applyMerge (some D) (appendToDigest (some D) p readUrl) = some D := by
  have h1 : appendToDigest (some D) p readUrl = MergeResult.noWrite := by
    unfold appendToDigest
    simp [h]
  exact ⟨h1, by rw [h1]; rfl⟩

/-- C3 witness: redelivery of id-1 into the digest already containing it. -/
theorem C3_duplicate_noop_witness :
    appendToDigest (some c3Digest) c3Email none = MergeResult.noWrite ∧
    applyMerge (some c3Digest) (appendToDigest (some c3Digest) c3Email none) =
      some c3Digest :=
  C3_duplicate_noop c3Digest c3Email none (by decide)

/-- C2 counterexample: on a malformed stored digest the merge does not fail.
It writes a fresh document carrying only the new entry: the write result is
exactly the one-entry render, the rewritten document's id list is just the
new id, and the malformed document's old content is gone. -/
theorem C2_malformed_overwrite_counterexample :
    appendToDigest (some c2BadDigest) c2Email none =
      MergeResult.write (generateDigestMarkdown ⟨2026, 2, 3⟩
        [generateDigestEntry c2Email none] ["id-9".data] ["Tech".data]) ∧
    (parseDigestMarkdown (generateDigestMarkdown ⟨2026, 2, 3⟩
        [generateDigestEntry c2Email none] ["id-9".data] ["Tech".data])).emailIds =
      ["id-9".data] ∧
    occursInB "Old Entry".data (generateDigestMarkdown ⟨2026, 2, 3⟩
        [generateDigestEntry c2Email none] ["id-9".data] ["Tech".data]) = false := by
  refine ⟨by decide, by decide, by decide⟩

/-- C2 amended: when parsing the existing document recovers nothing (the
malformed case), appendToDigest does not report an error; it proceeds and
writes back a document containing only the new entry, silently discarding
whatever the malformed document held. (The source merge has no failure path
at all: MergeResult has no error constructor because appendToDigest can only
skip the write or write.) -/
theorem C2_malformed_overwrite (D : Str) (p : ParsedEmailM) (r : Option Str)
    (h : parseDigestMarkdown D = ⟨[], [], []⟩) :
    appendToDigest (some D) p r =
      MergeResult.write (generateDigestMarkdown p.date [generateDigestEntry p r]
        [p.messageId]
        [match p.topic with
         | some t => if t = [] then DEFAULT_TOPIC else t
         | none => DEFAULT_TOPIC]) := by
  simp [appendToDigest, h]

/-- C2 witness: the amended theorem at the malformed fixture. -/
theorem C2_malformed_overwrite_witness :
    appendToDigest (some c2BadDigest) c2Email none =
      MergeResult.write (generateDigestMarkdown c2Email.date
        [generateDigestEntry c2Email none] [c2Email.messageId]
        [match c2Email.topic with
         | some t => if t = [] then DEFAULT_TOPIC else t
         | none => DEFAULT_TOPIC]) :=
  C2_malformed_overwrite c2BadDigest c2Email none (by decide)

/-! ## Prefix and occurrence utilities for the round-trip development -/

theorem prefix_cut (p u v : Str) (hp : p <+: u ++ v) (hl : p.length ≤ u.length) :
    p <+: u := by
  rw [List.prefix_iff_eq_take] at hp ⊢
  rw [List.take_append_eq_append_take, Nat.sub_eq_zero_of_le hl, List.take_zero,
    List.append_nil] at hp
  exact hp

theorem prefix_split (p u v : Str) (hp : p <+: u ++ v) (hl : u.length < p.length) :
    p.take u.length = u ∧ p.drop u.length <+: v := by
  obtain ⟨w, hw⟩ := hp
  constructor
  · have := congrArg (List.take u.length) hw
    rw [List.take_append_eq_append_take, List.take_append_eq_append_take,
      Nat.sub_eq_zero_of_le (le_of_lt hl), List.take_zero, List.append_nil,
      Nat.sub_self, List.take_zero, List.append_nil, List.take_length] at this
    exact this
  · have := congrArg (List.drop u.length) hw
    rw [List.drop_append_eq_append_drop, List.drop_append_eq_append_drop,
      Nat.sub_eq_zero_of_le (le_of_lt hl), List.drop_zero,
      Nat.sub_self, List.drop_zero, List.drop_length, List.nil_append] at this
    exact ⟨w, this⟩

theorem prefix_getD (p l : Str) (hp : p <+: l) (k : Nat) (hk : k < p.length) (d : Char) :
    l.getD k d = p.getD k d := by
  obtain ⟨w, hw⟩ := hp
  rw [← hw, List.getD_append _ _ _ _ hk]

theorem prefix_head_eq (p : Str) (c : Char) (rest : Str) (x : Char) (q : Str)
    (hpx : p = x :: q) (hp : p <+: c :: rest) : x = c := by
  subst hpx
  obtain ⟨w, hw⟩ := hp
  exact (List.cons.injEq _ _ _ _).mp hw |>.1

theorem no_early_occ (sep a X : Str)
    (hin : ∀ i, ¬ sep <+: a.drop i)
    (hspan : ∀ t, 0 < t → t < sep.length → sep.take t <:+ a → ¬ sep.drop t <+: X) :
    ∀ i < a.length, ¬ sep <+: (a ++ X).drop i := by
  intro i hi hp
  rw [List.drop_append_eq_append_drop, Nat.sub_eq_zero_of_le (le_of_lt hi),
    List.drop_zero] at hp
  by_cases hlen : sep.length ≤ (a.drop i).length
  · exact hin i (prefix_cut _ _ _ hp hlen)
  · push_neg at hlen
    have hlen2 : (a.drop i).length = a.length - i := List.length_drop i a
    obtain ⟨htake, hdrop⟩ := prefix_split _ _ _ hp hlen
    refine hspan (a.drop i).length (by omega) hlen ?_ hdrop
    rw [htake]
    exact List.drop_suffix i a

theorem suffix_prefix_occ (p a : Str) (hs : p <:+ a) : ∀ q, q <+: p → q <+: a.drop (a.length - p.length) := by
  intro q hq
  rw [List.suffix_iff_eq_drop] at hs
  rw [← hs]
  exact hq

/-- Pieces of a single-character split never contain the separator. -/
theorem splitOnL_single_no_nl (c : Char) :
    ∀ s : Str, ∀ piece ∈ splitOnL [c] s, c ∉ piece := by
  have hsep : ([c] : Str) ≠ [] := by simp
  intro s
  induction s with
  | nil =>
    intro piece hp
    rw [splitOnL_nil] at hp
    simp only [List.mem_singleton] at hp
    subst hp
    simp
  | cons x cs ih =>
    intro piece hp
    rw [splitOnL_cons_step _ hsep] at hp
    by_cases hx : ([c] : Str).isPrefixOf (x :: cs)
    · rw [if_pos hx] at hp
      rcases List.mem_cons.mp hp with h | h
      · subst h; simp
      · simp only [List.length_cons, List.length_nil, Nat.zero_add, Nat.sub_self,
          List.drop_zero] at h
        exact ih piece h
    · rw [if_neg hx] at hp
      have hxc : x ≠ c := by
        intro hh
        subst hh
        exact hx (List.isPrefixOf_iff_prefix.mpr ⟨cs, rfl⟩)
      cases hpieces : splitOnL [c] cs with
      | nil => exact absurd hpieces (splitOnL_ne_nil _ _)
      | cons q qs =>
        rw [hpieces] at hp
        simp only [splitConsHead] at hp
        rcases List.mem_cons.mp hp with h | h
        · subst h
          intro hmem
          rcases List.mem_cons.mp hmem with h | h
          · exact hxc h.symm
          · exact ih q (by rw [hpieces]; exact List.mem_cons_self _ _) h
        · exact ih piece (by rw [hpieces]; exact List.mem_cons_of_mem _ h)

/-- A newline-free prefix of the first line of a string is a prefix of the
string itself. -/
theorem first_line_pref :
    ∀ (s q : Str), '\n' ∉ q → ∀ hd tl, linesOf s = hd :: tl → q <+: hd → q <+: s := by
  intro s
  induction s with
  | nil =>
    intro q hq hd tl hlines hp
    rw [linesOf, splitOnL_nil] at hlines
    obtain ⟨h1, _⟩ := (List.cons.injEq _ _ _ _).mp hlines.symm
    rw [h1] at hp
    have := List.prefix_nil.mp hp
    subst this
    simp
  | cons x cs ih =>
    intro q hq hd tl hlines hp
    rw [linesOf, splitOnL_cons_step _ (by simp)] at hlines
    by_cases hx : x = '\n'
    · subst hx
      have hpref : (['\n'] : Str).isPrefixOf ('\n' :: cs) = true :=
        List.isPrefixOf_iff_prefix.mpr ⟨cs, rfl⟩
      rw [if_pos hpref] at hlines
      obtain ⟨h1, _⟩ := (List.cons.injEq _ _ _ _).mp hlines.symm
      rw [h1] at hp
      have := List.prefix_nil.mp hp
      subst this
      simp
    · have hnp : ¬ (['\n'] : Str).isPrefixOf (x :: cs) = true := by
        intro hpp
        have h2 := (singleton_prefix_iff '\n' _).mp (List.isPrefixOf_iff_prefix.mp hpp)
        simp only [List.head?_cons, Option.some.injEq] at h2
        exact hx h2
      rw [if_neg hnp] at hlines
      cases hcs : splitOnL ['\n'] cs with
      | nil => exact absurd hcs (splitOnL_ne_nil _ _)
      | cons q2 qs2 =>
        rw [hcs] at hlines
        simp only [splitConsHead] at hlines
        obtain ⟨h1, _⟩ := (List.cons.injEq _ _ _ _).mp hlines.symm
        rw [h1] at hp
        cases hq2 : q with
        | nil => simp
        | cons qc qrest =>
          rw [hq2] at hp
          have hqc : qc = x := prefix_head_eq _ x q2 qc qrest rfl hp
          subst hqc
          obtain ⟨w, hw⟩ := hp
          simp only [List.cons_append, List.cons.injEq] at hw
          have hrest : qrest <+: q2 := ⟨w, hw.2⟩
          have hqrest : '\n' ∉ qrest := by
            intro hmem
            exact hq (by rw [hq2]; exact List.mem_cons_of_mem _ hmem)
          obtain ⟨w2, hw2⟩ := ih qrest hqrest q2 qs2 (by rw [linesOf, hcs]) hrest
          refine ⟨w2, ?_⟩
          simp only [List.cons_append, List.cons.injEq]
          exact ⟨trivial, hw2⟩

theorem occursPred_cons (pat : Str) (c : Char) (cs : Str) (h : occursPred pat cs) :
    occursPred pat (c :: cs) := by
  obtain ⟨i, hi⟩ := h
  exact ⟨i + 1, by simpa using hi⟩

/-- A newline-free prefix of a non-first line of a string yields an occurrence
of the newline-extended pattern in the string. -/
theorem tail_line_occ :
    ∀ (s p : Str), '\n' ∉ p → ∀ l ∈ (linesOf s).tail, p <+: l →
      occursPred ('\n' :: p) s := by
  intro s
  induction s with
  | nil =>
    intro p _ l hl _
    rw [linesOf, splitOnL_nil] at hl
    simp at hl
  | cons c cs ih =>
    intro p hp l hl hpre
    rw [linesOf, splitOnL_cons_step _ (by simp)] at hl
    by_cases hc : c = '\n'
    · subst hc
      have hpref : (['\n'] : Str).isPrefixOf ('\n' :: cs) = true :=
        List.isPrefixOf_iff_prefix.mpr ⟨cs, rfl⟩
      rw [if_pos hpref] at hl
      simp only [List.length_cons, List.length_nil, Nat.zero_add, Nat.sub_self,
        List.drop_zero, List.tail_cons] at hl
      cases hcs : splitOnL ['\n'] cs with
      | nil => exact absurd hcs (splitOnL_ne_nil _ _)
      | cons q2 qs2 =>
        rw [hcs] at hl
        rcases List.mem_cons.mp hl with h | h
        · subst h
          have : p <+: cs := first_line_pref cs p hp l qs2 (by rw [linesOf, hcs]) hpre
          obtain ⟨w, hw⟩ := this
          exact ⟨0, ⟨w, by simpa using hw⟩⟩
        · exact occursPred_cons _ _ _ (ih p hp l (by rw [linesOf, hcs]; exact h) hpre)
    · have hnp : ¬ (['\n'] : Str).isPrefixOf (c :: cs) = true := by
        intro hpp
        have h2 := (singleton_prefix_iff '\n' _).mp (List.isPrefixOf_iff_prefix.mp hpp)
        simp only [List.head?_cons, Option.some.injEq] at h2
        exact hc h2
      rw [if_neg hnp] at hl
      cases hcs : splitOnL ['\n'] cs with
      | nil => exact absurd hcs (splitOnL_ne_nil _ _)
      | cons q2 qs2 =>
        rw [hcs] at hl
        simp only [splitConsHead, List.tail_cons] at hl
        exact occursPred_cons _ _ _ (ih p hp l (by rw [linesOf, hcs]; exact hl) hpre)

theorem intercalateNL_append (A B : List Str) (hA : A ≠ []) (hB : B ≠ []) :
    intercalateNL (A ++ B) = intercalateNL A ++ ['\n'] ++ intercalateNL B := by
  induction A with
  | nil => exact absurd rfl hA
  | cons x A2 ih =>
    cases A2 with
    | nil =>
      cases B with
      | nil => exact absurd rfl hB
      | cons y B2 =>
        rw [List.singleton_append, intercalateNL_cons, intercalateNL_single]
    | cons y A3 =>
      have h2 : (y :: A3) ++ B ≠ [] := by simp
      rw [show ((x :: y :: A3) ++ B) = x :: ((y :: A3) ++ B) from rfl]
      cases hyb : (y :: A3) ++ B with
      | nil => exact absurd hyb h2
      | cons z Z =>
        rw [intercalateNL_cons x z Z, ← hyb, ih (by simp), intercalateNL_cons]
        simp [List.append_assoc]

/-! ## Frontmatter machinery -/

theorem itemMatchL_render (x : Str) (hx : goodItem x) :
    itemMatchL ("  - ".data ++ x) = some x := by
  obtain ⟨hne, _, hhead⟩ := hx
  cases x with
  | nil => exact absurd rfl hne
  | cons xh xt =>
    have hxh : isSpaceJS xh = false := hhead xh rfl
    show itemMatchL (' ' :: ' ' :: '-' :: ' ' :: xh :: xt) = some (xh :: xt)
    unfold itemMatchL
    simp only [List.takeWhile_cons]
    norm_num [show isSpaceJS ' ' = true from rfl, show isSpaceJS '-' = false from rfl,
      List.dropWhile_cons, hxh]
    exact fun h => absurd h (by simp)

theorem trimL_item_head (x : Str) : ∃ u, trimL ("  - ".data ++ x) = '-' :: u := by
  have h1 : ("  - ".data ++ x) = [' ', ' '] ++ ('-' :: (' ' :: x)) := rfl
  rw [h1, trimL_ws_prefix [' ', ' '] _ (by decide)]
  exact trimL_head '-' (by decide) (' ' :: x)

theorem trim_head_ne_key (t : Str) (c : Char) (hhead : ∃ u, t = c :: u)
    (e : Char) (k : Str) (hne : c ≠ e) : t ≠ e :: k := by
  obtain ⟨u, hu⟩ := hhead
  rw [hu]
  intro hh
  exact hne ((List.cons.injEq _ _ _ _).mp hh).1

theorem fmStep_key_ids (st : FmState) :
    fmStep st "email_ids:".data = ⟨some true, st.ids, st.topics⟩ := by
  unfold fmStep
  rw [if_pos (by decide)]

theorem fmStep_key_topics (st : FmState) :
    fmStep st "email_topics:".data = ⟨some false, st.ids, st.topics⟩ := by
  unfold fmStep
  rw [if_neg (by decide), if_pos (by decide)]

theorem fmStep_none_nonkey (st : FmState) (hmode : st.mode = none) (line : Str)
    (h1 : trimL line ≠ "email_ids:".data) (h2 : trimL line ≠ "email_topics:".data) :
    fmStep st line = st := by
  unfold fmStep
  rw [if_neg h1, if_neg h2, hmode]

theorem fmStep_item_true (ids topics : List Str) (x : Str) (hx : goodItem x) :
    fmStep ⟨some true, ids, topics⟩ ("  - ".data ++ x) =
      ⟨some true, ids ++ [x], topics⟩ := by
  have hne1 : trimL ("  - ".data ++ x) ≠ "email_ids:".data :=
    trim_head_ne_key _ '-' (trimL_item_head x) 'e' _ (by decide)
  have hne2 : trimL ("  - ".data ++ x) ≠ "email_topics:".data :=
    trim_head_ne_key _ '-' (trimL_item_head x) 'e' _ (by decide)
  have him : itemMatchL (' ' :: ' ' :: '-' :: ' ' :: x) = some x := itemMatchL_render x hx
  unfold fmStep
  rw [if_neg hne1, if_neg hne2]
  simp [him]

theorem fmStep_item_false (ids topics : List Str) (x : Str) (hx : goodItem x) :
    fmStep ⟨some false, ids, topics⟩ ("  - ".data ++ x) =
      ⟨some false, ids, topics ++ [x]⟩ := by
  have hne1 : trimL ("  - ".data ++ x) ≠ "email_ids:".data :=
    trim_head_ne_key _ '-' (trimL_item_head x) 'e' _ (by decide)
  have hne2 : trimL ("  - ".data ++ x) ≠ "email_topics:".data :=
    trim_head_ne_key _ '-' (trimL_item_head x) 'e' _ (by decide)
  have him : itemMatchL (' ' :: ' ' :: '-' :: ' ' :: x) = some x := itemMatchL_render x hx
  unfold fmStep
  rw [if_neg hne1, if_neg hne2]
  simp [him]

theorem foldl_fm_items_true :
    ∀ (items ids topics : List Str), (∀ x ∈ items, goodItem x) →
      (items.map fun x => "  - ".data ++ x).foldl fmStep ⟨some true, ids, topics⟩ =
        ⟨some true, ids ++ items, topics⟩ := by
  intro items
  induction items with
  | nil => intro ids topics _; simp
  | cons x rest ih =>
    intro ids topics hgood
    simp only [List.map_cons, List.foldl_cons]
    rw [fmStep_item_true ids topics x (hgood x (by simp)),
      ih (ids ++ [x]) topics (fun y hy => hgood y (List.mem_cons_of_mem _ hy))]
    simp

theorem foldl_fm_items_false :
    ∀ (items ids topics : List Str), (∀ x ∈ items, goodItem x) →
      (items.map fun x => "  - ".data ++ x).foldl fmStep ⟨some false, ids, topics⟩ =
        ⟨some false, ids, topics ++ items⟩ := by
  intro items
  induction items with
  | nil => intro ids topics _; simp
  | cons x rest ih =>
    intro ids topics hgood
    simp only [List.map_cons, List.foldl_cons]
    rw [fmStep_item_false ids topics x (hgood x (by simp)),
      ih ids (topics ++ [x]) (fun y hy => hgood y (List.mem_cons_of_mem _ hy))]
    simp

theorem foldl_fm_full (dateStr cnt : Str) (ids topics : List Str)
    (hids : ∀ x ∈ ids, goodItem x) (htops : ∀ x ∈ topics, goodItem x) :
    (["tags:".data, "  - newsletter".data, "  - digest".data,
      "created: ".data ++ dateStr, "newsletter_count: ".data ++ cnt,
      "email_ids:".data] ++ (ids.map fun x => "  - ".data ++ x) ++
      ["email_topics:".data] ++ (topics.map fun x => "  - ".data ++ x)).foldl
        fmStep ⟨none, [], []⟩ = ⟨some false, ids, topics⟩ := by
  rw [List.foldl_append, List.foldl_append, List.foldl_append]
  have hcreated : ∃ u, ("created: ".data ++ dateStr) = 'c' :: u :=
    ⟨"reated: ".data ++ dateStr, rfl⟩
  have hcount : ∃ u, ("newsletter_count: ".data ++ cnt) = 'n' :: u :=
    ⟨"ewsletter_count: ".data ++ cnt, rfl⟩
  have hcreated' : ∃ u, trimL ("created: ".data ++ dateStr) = 'c' :: u := by
    obtain ⟨u, hu⟩ := hcreated
    rw [hu]
    exact trimL_head 'c' (by decide) u
  have hcount' : ∃ u, trimL ("newsletter_count: ".data ++ cnt) = 'n' :: u := by
    obtain ⟨u, hu⟩ := hcount
    rw [hu]
    exact trimL_head 'n' (by decide) u
  have h1 : ((["tags:".data, "  - newsletter".data, "  - digest".data,
      "created: ".data ++ dateStr, "newsletter_count: ".data ++ cnt,
      "email_ids:".data] : List Str)).foldl fmStep ⟨none, [], []⟩ =
      ⟨some true, [], []⟩ := by
    simp only [List.foldl_cons, List.foldl_nil]
    rw [fmStep_none_nonkey ⟨none, [], []⟩ rfl _ (by decide) (by decide),
      fmStep_none_nonkey ⟨none, [], []⟩ rfl _ (by decide) (by decide),
      fmStep_none_nonkey ⟨none, [], []⟩ rfl _ (by decide) (by decide),
      fmStep_none_nonkey ⟨none, [], []⟩ rfl _
        (trim_head_ne_key _ 'c' hcreated' 'e' _ (by decide))
        (trim_head_ne_key _ 'c' hcreated' 'e' _ (by decide)),
      fmStep_none_nonkey ⟨none, [], []⟩ rfl _
        (trim_head_ne_key _ 'n' hcount' 'e' _ (by decide))
        (trim_head_ne_key _ 'n' hcount' 'e' _ (by decide)),
      fmStep_key_ids]
  rw [h1, foldl_fm_items_true ids [] [] hids]
  simp only [List.nil_append, List.foldl_cons, List.foldl_nil]
  rw [fmStep_key_topics, foldl_fm_items_false topics ids [] htops]
  simp

/-! ## Locating the title line -/

theorem find?_range_eq_some (p : Nat → Bool) :
    ∀ (n i0 : Nat), i0 < n → p i0 = true → (∀ i < i0, p i = false) →
      (List.range n).find? p = some i0 := by
  intro n
  induction n with
  | zero => intro i0 hi _ _; exact absurd hi (by omega)
  | succ m ih =>
    intro i0 hi hp hlt
    rw [List.range_succ, List.find?_append]
    by_cases hin : i0 < m
    · rw [ih i0 hin hp hlt]
      rfl
    · have hi0 : i0 = m := by omega
      subst hi0
      have hnone : (List.range i0).find? p = none :=
        List.find?_eq_none.mpr fun x hx => by
          rw [hlt x (List.mem_range.mp hx)]
          simp
      rw [hnone]
      simp [List.find?_cons, hp]

/-! ## Separator boundary analysis for entry splitting -/

theorem sepM_hin (e : Str) (he : ¬ occursPred "\n\n---".data e) :
    ∀ i, ¬ sepMarker <+: e.drop i := by
  intro i hp
  exact he ⟨i, List.IsPrefix.trans (by decide) hp⟩

theorem sepM_safe_nn (Z : Str) :
    ∀ t, 0 < t → t < 5 → ¬ sepMarker.drop t <+: ('\n' :: '\n' :: Z) := by
  intro t h1 h5 hp
  interval_cases t
  · obtain ⟨w, hw⟩ := hp
    rw [show sepMarker.drop 1 = ['\n', '-', '-', '-', '\n', '\n'] from rfl] at hw
    simp only [List.cons_append, List.cons.injEq] at hw
    exact absurd hw.2.1 (by decide)
  · obtain ⟨w, hw⟩ := hp
    rw [show sepMarker.drop 2 = ['-', '-', '-', '\n', '\n'] from rfl] at hw
    simp only [List.cons_append, List.cons.injEq] at hw
    exact absurd hw.1 (by decide)
  · obtain ⟨w, hw⟩ := hp
    rw [show sepMarker.drop 3 = ['-', '-', '\n', '\n'] from rfl] at hw
    simp only [List.cons_append, List.cons.injEq] at hw
    exact absurd hw.1 (by decide)
  · obtain ⟨w, hw⟩ := hp
    rw [show sepMarker.drop 4 = ['-', '\n', '\n'] from rfl] at hw
    simp only [List.cons_append, List.cons.injEq] at hw
    exact absurd hw.1 (by decide)

theorem sepM_safe_single :
    ∀ t, 0 < t → t < 5 → ¬ sepMarker.drop t <+: ['\n'] := by
  intro t h1 h5 hp
  have hl := hp.length_le
  rw [List.length_drop, show sepMarker.length = 7 from rfl] at hl
  simp only [List.length_cons, List.length_nil] at hl
  omega

theorem sepM_no_early (e X : Str) (he : ¬ occursPred "\n\n---".data e)
    (hX : (∃ Z, X = '\n' :: '\n' :: Z) ∨ X = ['\n']) :
    ∀ i < e.length, ¬ sepMarker <+: (e ++ X).drop i := by
  refine no_early_occ sepMarker e X (sepM_hin e he) ?_
  intro t ht1 ht7 hsuf hp
  rw [show sepMarker.length = 7 from rfl] at ht7
  by_cases ht5 : t < 5
  · rcases hX with ⟨Z, hZ⟩ | hZ
    · subst hZ
      exact sepM_safe_nn Z t ht1 ht5 hp
    · subst hZ
      exact sepM_safe_single t ht1 ht5 hp
  · have h5 : "\n\n---".data <+: sepMarker.take t := by
      interval_cases t <;> decide
    exact he ⟨e.length - (sepMarker.take t).length,
      suffix_prefix_occ (sepMarker.take t) e hsuf "\n\n---".data h5⟩

theorem trail_ws (trail : Str) (htrail : trail = ['\n'] ∨ trail = ['\n', '\n']) :
    ∀ c ∈ trail, isSpaceJS c = true := by
  rcases htrail with h | h <;> subst h <;> decide

theorem trail_shape (trail : Str) (htrail : trail = ['\n'] ∨ trail = ['\n', '\n']) :
    (∃ Z, trail = '\n' :: '\n' :: Z) ∨ trail = ['\n'] := by
  rcases htrail with h | h
  · exact Or.inr h
  · exact Or.inl ⟨[], h⟩

theorem intercalate_cons2 (sep x y : Str) (ys : List Str) :
    List.intercalate sep (x :: y :: ys) = x ++ sep ++ List.intercalate sep (y :: ys) := by
  simp [List.intercalate, List.intersperse]

theorem splitOnL_no_occ_single_entry (e trail : Str)
    (he : ¬ occursPred "\n\n---".data e)
    (htrail : trail = ['\n'] ∨ trail = ['\n', '\n']) :
    splitOnL sepMarker (e ++ trail) = [e ++ trail] := by
  refine splitOnL_no_occ sepMarker (by decide) _ ?_
  intro i hp
  by_cases hi : i < e.length
  · exact sepM_no_early e trail he (trail_shape trail htrail) i hi hp
  · push_neg at hi
    have hd : (e ++ trail).drop i = trail.drop (i - e.length) := by
      rw [List.drop_append_eq_append_drop, List.drop_eq_nil_of_le hi, List.nil_append]
    rw [hd] at hp
    have hl := hp.length_le
    rw [show sepMarker.length = 7 from rfl, List.length_drop] at hl
    have : trail.length ≤ 2 := by
      rcases htrail with h | h <;> subst h <;> simp
    omega

/-- Splitting the rendered entry run of one topic section (the entries joined
by the separator, followed by the section trailer) and trimming recovers
exactly the trimmed entries, each tagged with the section topic. -/
theorem split_trim_joined {α : Type} (t : α) :
    ∀ (g : List Str), g ≠ [] →
      (∀ e ∈ g, ¬ occursPred "\n\n---".data e) → (∀ e ∈ g, trimL e ≠ []) →
      ∀ (trail : Str), (trail = ['\n'] ∨ trail = ['\n', '\n']) →
      ((splitOnL sepMarker (List.intercalate sepMarker g ++ trail)).filterMap
        fun raw => if trimL raw = [] then none else some (trimL raw, t)) =
        g.map fun e => (trimL e, t) := by
  intro g
  induction g with
  | nil => intro h; exact absurd rfl h
  | cons e g2 ih =>
    intro _ hocc htrim trail htrail
    cases g2 with
    | nil =>
      rw [show List.intercalate sepMarker [e] = e by simp [List.intercalate]]
      rw [splitOnL_no_occ_single_entry e trail (hocc e (by simp)) htrail]
      have htr : trimL (e ++ trail) = trimL e :=
        trimL_append_ws e trail (trail_ws trail htrail)
      have hne := htrim e (by simp)
      simp [htr, hne]
    | cons y ys =>
      rw [intercalate_cons2, List.append_assoc, List.append_assoc]
      have hX : (∃ Z, (sepMarker ++ (List.intercalate sepMarker (y :: ys) ++ trail)) =
          '\n' :: '\n' :: Z) ∨
          (sepMarker ++ (List.intercalate sepMarker (y :: ys) ++ trail)) = ['\n'] :=
        Or.inl ⟨"---\n\n".data ++ (List.intercalate sepMarker (y :: ys) ++ trail), rfl⟩
      have hsplit := splitOnL_append_sep sepMarker (by decide) e
        (List.intercalate sepMarker (y :: ys) ++ trail) ?_
      · simp only [List.append_assoc] at hsplit
        rw [hsplit]
        have hne := htrim e (by simp)
        have hih := ih (by simp) (fun x hx => hocc x (List.mem_cons_of_mem _ hx))
          (fun x hx => htrim x (List.mem_cons_of_mem _ hx)) trail htrail
        simp [hne, hih]
      · intro i hi
        simpa [List.append_assoc] using
          sepM_no_early e (sepMarker ++ (List.intercalate sepMarker (y :: ys) ++ trail))
            (hocc e (by simp)) hX i hi

/-! ## Section header stripping -/

theorem intercalateNL_snoc_empty (X : List Str) (hX : X ≠ []) :
    intercalateNL (X ++ [[]]) = intercalateNL X ++ ['\n'] := by
  rw [intercalateNL_append X [[]] hX (by simp), intercalateNL_single]
  simp

theorem stripSectionHeader_eq (h : Str) (rest : List Str)
    (hpre : "## ".data.isPrefixOf h = true) (hlen : 3 < h.length)
    (hnlh : '\n' ∉ h) (hnlr : ∀ l ∈ rest, '\n' ∉ l) (hrest : rest ≠ []) :
    stripSectionHeader (intercalateNL (h :: [] :: rest)) = intercalateNL rest := by
  have hall : ∀ l ∈ (h :: [] :: rest), '\n' ∉ l := by
    intro l hl
    rcases List.mem_cons.mp hl with h1 | h1
    · subst h1; exact hnlh
    · rcases List.mem_cons.mp h1 with h2 | h2
      · subst h2; simp
      · exact hnlr l h2
  unfold stripSectionHeader
  rw [linesOf_intercalate (h :: [] :: rest) (by simp) hall]
  have hc : ("## ".data.isPrefixOf h && decide (3 < h.length) &&
      ([] : Str).isEmpty && decide (rest ≠ [])) = true := by
    simp [hpre, hlen, hrest]
  simp only [hc, if_true]

/-! ## No spurious section headers inside rendered entries -/

theorem drop_getD (s : Str) (i k : Nat) (d : Char) :
    (s.drop i).getD k d = s.getD (i + k) d := by
  rw [List.getD_eq_getElem?_getD, List.getD_eq_getElem?_getD, List.getElem?_drop]

theorem prefix_mismatch (p l : Str) (k : Nat) (hk : k < p.length) (d : Char)
    (hne : l.getD k d ≠ p.getD k d) : ¬ p <+: l :=
  fun hp => hne (prefix_getD p l hp k hk d)

theorem occursPred_append_elim (p A B : Str) (h : occursPred p (A ++ B)) :
    (∃ i < A.length, p <+: (A ++ B).drop i) ∨ occursPred p B := by
  obtain ⟨i, hi⟩ := h
  by_cases hlt : i < A.length
  · exact Or.inl ⟨i, hlt, hi⟩
  · push_neg at hlt
    right
    refine ⟨i - A.length, ?_⟩
    rwa [List.drop_append_eq_append_drop, List.drop_eq_nil_of_le hlt,
      List.nil_append] at hi

/-- Every line of a string that neither starts with a section-header prefix
nor contains a newline followed by one is free of section-header prefixes. -/
theorem lines_not_header (s : Str) (h1 : ¬ ("## ".data <+: s))
    (h2 : ¬ occursPred "\n## ".data s) :
    ∀ l ∈ linesOf s, ¬ ("## ".data <+: l) := by
  intro l hl hp
  cases hlines : linesOf s with
  | nil => exact absurd hlines (splitOnL_ne_nil _ _)
  | cons hd tl =>
    rw [hlines] at hl
    rcases List.mem_cons.mp hl with h | h
    · subst h
      exact h1 (first_line_pref s "## ".data (by decide) l tl hlines hp)
    · exact h2 (tail_line_occ s "## ".data (by decide) l (by rw [hlines]; exact h) hp)

/-- The joined entry run of a section does not start with a section-header
prefix. -/
theorem joined_no_header_pref :
    ∀ (g : List Str), (∀ e ∈ g, ¬ ("## ".data <+: e)) → (∀ e ∈ g, trimL e ≠ []) →
      ¬ ("## ".data <+: List.intercalate sepMarker g) := by
  intro g
  cases g with
  | nil =>
    intro _ _ hp
    have := hp.length_le
    simp [List.intercalate] at this
  | cons e g2 =>
    intro hpre htrim hp
    cases g2 with
    | nil =>
      rw [show List.intercalate sepMarker [e] = e by simp [List.intercalate]] at hp
      exact hpre e (by simp) hp
    | cons y ys =>
      rw [intercalate_cons2, List.append_assoc] at hp
      by_cases hlen : 3 ≤ e.length
      · refine hpre e (by simp) (prefix_cut _ _ _ hp ?_)
        have h3 : ("## ".data : Str).length = 3 := rfl
        omega
      · have hee : e ≠ [] := fun hh => htrim e (by simp) (by rw [hh]; rfl)
        have h3 : ("## ".data : Str).length = 3 := rfl
        have hlen2 : e.length < ("## ".data : Str).length := by omega
        obtain ⟨htake, hdrop⟩ := prefix_split _ _ _ hp hlen2
        have ha : (sepMarker ++ List.intercalate sepMarker (y :: ys)).getD 0 ' ' = '\n' := by
          rw [List.getD_append sepMarker _ ' ' 0 (by decide)]
          rfl
        have hlen1 : e.length = 1 ∨ e.length = 2 := by
          have : 0 < e.length := List.length_pos.mpr hee
          omega
        rcases hlen1 with h1 | h1
        · refine prefix_mismatch _ _ 0 ?_ ' ' ?_ hdrop
          · rw [List.length_drop, h1]
            decide
          · rw [h1, ha]
            decide
        · refine prefix_mismatch _ _ 0 ?_ ' ' ?_ hdrop
          · rw [List.length_drop, h1]
            decide
          · rw [h1, ha]
            decide

/-- The joined entry run of a section contains no newline followed by a
section-header prefix. -/
theorem joined_no_header_occ :
    ∀ (g : List Str),
      (∀ e ∈ g, ¬ occursPred "\n## ".data e) → (∀ e ∈ g, ¬ ("## ".data <+: e)) →
      (∀ e ∈ g, trimL e ≠ []) →
      ¬ occursPred "\n## ".data (List.intercalate sepMarker g) := by
  intro g
  induction g with
  | nil =>
    intro _ _ _ h
    obtain ⟨i, hi⟩ := h
    have := hi.length_le
    simp [List.intercalate] at this
  | cons e g2 ih =>
    intro hocc hpre htrim h
    cases g2 with
    | nil =>
      rw [show List.intercalate sepMarker [e] = e by simp [List.intercalate]] at h
      exact hocc e (by simp) h
    | cons y ys =>
      rw [intercalate_cons2, List.append_assoc] at h
      set J := List.intercalate sepMarker (y :: ys) with hJ
      rcases occursPred_append_elim _ e (sepMarker ++ J) h with ⟨i, hi, hp⟩ | h2
      · revert hp
        refine no_early_occ "\n## ".data e (sepMarker ++ J) ?_ ?_ i hi
        · intro j hp2
          exact hocc e (by simp) ⟨j, hp2⟩
        · intro t ht1 ht4 _ hp2
          rw [show ("\n## ".data : Str).length = 4 from rfl] at ht4
          have ha : (sepMarker ++ J).getD 0 ' ' = '\n' := by
            rw [List.getD_append sepMarker _ ' ' 0 (by decide)]
            rfl
          interval_cases t
          · refine prefix_mismatch _ _ 0 ?_ ' ' ?_ hp2
            · decide
            · rw [ha]
              decide
          · refine prefix_mismatch _ _ 0 ?_ ' ' ?_ hp2
            · decide
            · rw [ha]
              decide
          · refine prefix_mismatch _ _ 0 ?_ ' ' ?_ hp2
            · decide
            · rw [ha]
              decide
      · rcases occursPred_append_elim _ sepMarker J h2 with ⟨j, hj, hp⟩ | h3
        · rw [show sepMarker.length = 7 from rfl] at hj
          have hgd : ∀ k, j + k < 7 → ((sepMarker ++ J).drop j).getD k ' ' = sepMarker.getD (j + k) ' ' := by
            intro k hk
            rw [drop_getD, List.getD_append sepMarker _ ' ' (j + k) (by simpa using hk)]
          by_cases hj6 : j = 6
          · subst hj6
            obtain ⟨w, hw⟩ := hp
            have hdrop6 : (sepMarker ++ J).drop 6 = '\n' :: J := by
              rw [show sepMarker = ("\n\n---\n".data : Str) ++ ['\n'] from rfl]
              rw [List.append_assoc, List.drop_append_eq_append_drop]
              simp
            rw [hdrop6] at hw
            have hw2 : "## ".data ++ w = J := by
              have := (List.cons.injEq _ _ _ _).mp hw
              simpa using this.2
            exact joined_no_header_pref (y :: ys)
              (fun x hx => hpre x (List.mem_cons_of_mem _ hx))
              (fun x hx => htrim x (List.mem_cons_of_mem _ hx)) ⟨w, hw2⟩
          · have hj5 : j < 6 := by omega
            interval_cases j
            · exact prefix_mismatch _ _ 1 (by decide) ' '
                (by rw [hgd 1 (by omega)]; decide) hp
            · exact prefix_mismatch _ _ 1 (by decide) ' '
                (by rw [hgd 1 (by omega)]; decide) hp
            · exact prefix_mismatch _ _ 0 (by decide) ' '
                (by rw [hgd 0 (by omega)]; decide) hp
            · exact prefix_mismatch _ _ 0 (by decide) ' '
                (by rw [hgd 0 (by omega)]; decide) hp
            · exact prefix_mismatch _ _ 0 (by decide) ' '
                (by rw [hgd 0 (by omega)]; decide) hp
            · exact prefix_mismatch _ _ 1 (by decide) ' '
                (by rw [hgd 1 (by omega)]; decide) hp
        · exact ih (fun x hx => hocc x (List.mem_cons_of_mem _ hx))
            (fun x hx => hpre x (List.mem_cons_of_mem _ hx))
            (fun x hx => htrim x (List.mem_cons_of_mem _ hx)) h3

/-! ## Section slicing machinery -/

theorem map_getD_lt (g : Nat → Nat) (l : List Nat) (k : Nat) (hk : k < l.length) (d d2 : Nat) :
    (l.map g).getD k d = g (l.getD k d2) := by
  rw [List.getD_eq_getElem?_getD, List.getD_eq_getElem?_getD]
  rw [List.getElem?_eq_getElem (by simpa using hk), List.getElem?_eq_getElem hk]
  simp

theorem sectionHeaderIdxs_block_append (B J : List Str) (h : Str) (restB : List Str)
    (hB : B = h :: restB) (hh : (sectionHeaderCapture h).isSome = true)
    (hr : ∀ l ∈ restB, sectionHeaderCapture l = none) :
    sectionHeaderIdxs (B ++ J) = 0 :: (sectionHeaderIdxs J).map (B.length + ·) := by
  unfold sectionHeaderIdxs
  rw [List.length_append, List.range_add, List.filter_append]
  have h1 : ((List.range B.length).filter fun i =>
      (sectionHeaderCapture ((B ++ J).getD i [])).isSome) = [0] := by
    rw [List.filter_congr (fun i hi => by
      rw [List.getD_append B J [] i (List.mem_range.mp hi)])]
    subst hB
    rw [show (h :: restB).length = restB.length + 1 from rfl, List.range_succ_eq_map]
    rw [List.filter_cons]
    simp only [List.getD_cons_zero, hh, if_true]
    rw [List.filter_map]
    have hz : ((List.range restB.length).filter
        ((fun i => (sectionHeaderCapture ((h :: restB).getD i [])).isSome) ∘ Nat.succ)) = [] := by
      rw [List.filter_eq_nil_iff]
      intro a ha
      simp only [Function.comp]
      rw [List.getD_cons_succ]
      have hmem : restB.getD a [] ∈ restB := by
        rw [List.getD_eq_getElem?_getD, List.getElem?_eq_getElem (List.mem_range.mp ha)]
        exact List.getElem_mem _
      rw [hr _ hmem]
      simp
    rw [hz]
    rfl
  have h2 : ((List.map (fun x => B.length + x) (List.range J.length)).filter fun i =>
      (sectionHeaderCapture ((B ++ J).getD i [])).isSome) =
      (sectionHeaderIdxs J).map (B.length + ·) := by
    rw [List.filter_map]
    unfold sectionHeaderIdxs
    refine congrArg _ (List.filter_congr ?_)
    intro a _
    simp only [Function.comp]
    rw [List.getD_append_right B J [] (B.length + a) (Nat.le_add_right _ _),
      Nat.add_sub_cancel_left]
  rw [h1, h2]
  rfl

theorem sectionHeaderIdxs_head (J : List Str) (h2 : Str) (restJ : List Str)
    (hJ : J = h2 :: restJ) (hh : (sectionHeaderCapture h2).isSome = true) :
    ∃ tl, sectionHeaderIdxs J = 0 :: tl := by
  subst hJ
  unfold sectionHeaderIdxs
  rw [show (h2 :: restJ).length = restJ.length + 1 from rfl, List.range_succ_eq_map]
  rw [List.filter_cons]
  simp only [List.getD_cons_zero, hh, if_true]
  exact ⟨_, rfl⟩

theorem buildSections_single (B : List Str) (h : Str) (restB : List Str) (tp : Str)
    (hB : B = h :: restB) (hh : sectionHeaderCapture h = some tp)
    (hr : ∀ l ∈ restB, sectionHeaderCapture l = none) :
    buildSections B = [(tp, intercalateNL B)] := by
  have hidx : sectionHeaderIdxs B = [0] := by
    have := sectionHeaderIdxs_block_append B [] h restB hB (by rw [hh]; rfl) hr
    rw [List.append_nil] at this
    rw [this]
    rfl
  unfold buildSections
  rw [hidx]
  simp only [List.length_cons, List.length_nil, List.range_succ_eq_map,
    List.range_zero, List.map_nil, List.map_cons]
  have hgd : B.getD 0 [] = h := by rw [hB]; rfl
  rw [show ([0] : List Nat).getD 0 0 = 0 from rfl, hgd, hh]
  rw [if_neg (show ¬ (0 + 1 < 0 + 1) by omega)]
  simp

theorem buildSections_cons (B J : List Str) (h : Str) (restB : List Str) (tp : Str)
    (hB : B = h :: restB) (hh : sectionHeaderCapture h = some tp)
    (hr : ∀ l ∈ restB, sectionHeaderCapture l = none)
    (h2 : Str) (restJ : List Str) (hJ : J = h2 :: restJ)
    (hh2 : (sectionHeaderCapture h2).isSome = true) :
    buildSections (B ++ J) = (tp, intercalateNL B ++ ['\n']) :: buildSections J := by
  obtain ⟨tl, htl⟩ := sectionHeaderIdxs_head J h2 restJ hJ hh2
  have hidx := sectionHeaderIdxs_block_append B J h restB hB (by rw [hh]; rfl) hr
  rw [htl] at hidx
  have hBne : B ≠ [] := by rw [hB]; simp
  unfold buildSections
  rw [hidx, htl]
  have hlen : (0 :: (0 :: tl).map (B.length + ·)).length = tl.length + 1 + 1 := by simp
  rw [hlen]
  rw [show (0 :: tl : List Nat).length = tl.length + 1 from rfl]
  rw [List.range_succ_eq_map]
  rw [List.map_cons, List.map_map]
  congr 1
  · -- the first section
    have hgd0 : (B ++ J).getD 0 [] = h := by
      rw [List.getD_append B J [] 0 (by rw [hB]; simp), hB]
      rfl
    have hstop : ((0 : Nat) :: (0 :: tl).map (B.length + ·)).getD (0 + 1) 0 = B.length := by
      simp
    rw [show ((0 : Nat) :: (0 :: tl).map (B.length + ·)).getD 0 0 = 0 from rfl]
    rw [hgd0, hh, hstop]
    rw [if_pos (show 0 + 1 < tl.length + 1 + 1 by omega)]
    simp only [Option.getD_some, Nat.sub_zero, List.drop_zero, List.take_left]
  · -- the remaining sections
    refine List.map_congr_left ?_
    intro k hk
    have hk1 : k < tl.length + 1 := List.mem_range.mp hk
    simp only [Function.comp]
    have hstart : ((0 : Nat) :: (0 :: tl).map (B.length + ·)).getD (Nat.succ k) 0 =
        B.length + (0 :: tl).getD k 0 := by
      rw [List.getD_cons_succ]
      exact map_getD_lt (B.length + ·) (0 :: tl) k (by simpa using hk1) 0 0
    have hdropBJ : (B ++ J).drop (B.length + (0 :: tl).getD k 0) =
        J.drop ((0 :: tl).getD k 0) := by
      rw [List.drop_append_eq_append_drop, List.drop_eq_nil_of_le (by omega)]
      simp
    have hgdBJ : (B ++ J).getD (B.length + (0 :: tl).getD k 0) [] =
        J.getD ((0 :: tl).getD k 0) [] := by
      rw [List.getD_append_right B J [] _ (by omega)]
      congr 1
      omega
    rw [hstart, hgdBJ, hdropBJ]
    by_cases hc : k + 1 < tl.length + 1
    · have hc2 : Nat.succ k + 1 < tl.length + 1 + 1 := by omega
      rw [if_pos hc2, if_pos hc]
      have hstop2 : ((0 : Nat) :: (0 :: tl).map (B.length + ·)).getD (Nat.succ k + 1) 0 =
          B.length + (0 :: tl).getD (k + 1) 0 := by
        rw [show Nat.succ k + 1 = Nat.succ (k + 1) from rfl, List.getD_cons_succ]
        exact map_getD_lt (B.length + ·) (0 :: tl) (k + 1) (by simpa using hc) 0 0
      rw [hstop2]
      have harith : B.length + (0 :: tl).getD (k + 1) 0 - (B.length + (0 :: tl).getD k 0) =
          (0 :: tl).getD (k + 1) 0 - (0 :: tl).getD k 0 := by omega
      rw [harith]
    · have hc2 : ¬ (Nat.succ k + 1 < tl.length + 1 + 1) := by omega
      rw [if_neg hc2, if_neg hc]

/-! ## Per-topic facts and section reconstruction -/

theorem intercalateNL_linesOf (s : Str) : intercalateNL (linesOf s) = s := by
  induction s with
  | nil => rw [linesOf, splitOnL_nil]; rfl
  | cons c cs ih =>
    rw [linesOf, splitOnL_cons_step _ (by simp)]
    by_cases hc : c = '\n'
    · subst hc
      have hpref : (['\n'] : Str).isPrefixOf ('\n' :: cs) = true :=
        List.isPrefixOf_iff_prefix.mpr ⟨cs, rfl⟩
      rw [if_pos hpref]
      simp only [List.length_cons, List.length_nil, Nat.zero_add, Nat.sub_self,
        List.drop_zero]
      cases hcs : splitOnL ['\n'] cs with
      | nil => exact absurd hcs (splitOnL_ne_nil _ _)
      | cons q qs =>
        rw [intercalateNL_cons]
        rw [← hcs]
        rw [show splitOnL ['\n'] cs = linesOf cs from rfl, ih]
        rfl
    · have hnp : ¬ (['\n'] : Str).isPrefixOf (c :: cs) = true := by
        intro hpp
        have h2 := (singleton_prefix_iff '\n' _).mp (List.isPrefixOf_iff_prefix.mp hpp)
        simp only [List.head?_cons, Option.some.injEq] at h2
        exact hc h2
      rw [if_neg hnp]
      cases hcs : splitOnL ['\n'] cs with
      | nil => exact absurd hcs (splitOnL_ne_nil _ _)
      | cons q qs =>
        simp only [splitConsHead]
        cases qs with
        | nil =>
          rw [intercalateNL_single]
          have : intercalateNL [q] = cs := by
            rw [← hcs, show splitOnL ['\n'] cs = linesOf cs from rfl, ih]
          rw [intercalateNL_single] at this
          rw [this]
        | cons q2 qs2 =>
          rw [intercalateNL_cons]
          have : intercalateNL (q :: q2 :: qs2) = cs := by
            rw [← hcs, show splitOnL ['\n'] cs = linesOf cs from rfl, ih]
          rw [intercalateNL_cons] at this
          rw [← this]
          simp [List.append_assoc]

theorem capture_none_of_not_pref (l : Str) (h : ¬ ("## ".data <+: l)) :
    sectionHeaderCapture l = none := by
  unfold sectionHeaderCapture
  rw [if_neg (fun hb => h (List.isPrefixOf_iff_prefix.mp hb))]

theorem topic_order_facts :
    ∀ t ∈ TOPIC_ORDER,
      sectionHeaderCapture ("## ".data ++ getTopicEmoji t ++ [' '] ++ t) = some t ∧
      isTopicHeaderTest ("## ".data ++ getTopicEmoji t ++ [' '] ++ t) = true ∧
      '\n' ∉ ("## ".data ++ getTopicEmoji t ++ [' '] ++ t) ∧
      3 < ("## ".data ++ getTopicEmoji t ++ [' '] ++ t).length := by
  intro t ht
  simp only [TOPIC_ORDER, List.mem_cons, List.mem_singleton, List.not_mem_nil,
    or_false] at ht
  rcases ht with h | h | h | h | h | h <;> subst h <;>
    exact ⟨by decide, by decide, by decide, by decide⟩

theorem eLines_facts (g : List Str) (_hg : g ≠ [])
    (hocc : ∀ e ∈ g, ¬ occursPred "\n## ".data e)
    (hpre : ∀ e ∈ g, ¬ ("## ".data <+: e))
    (htrim : ∀ e ∈ g, trimL e ≠ []) :
    (∀ l ∈ linesOf (List.intercalate sepMarker g), sectionHeaderCapture l = none) ∧
    (∀ l ∈ linesOf (List.intercalate sepMarker g), '\n' ∉ l) ∧
    linesOf (List.intercalate sepMarker g) ≠ [] := by
  refine ⟨?_, ?_, splitOnL_ne_nil _ _⟩
  · intro l hl
    exact capture_none_of_not_pref l
      (lines_not_header _ (joined_no_header_pref g hpre htrim)
        (joined_no_header_occ g hocc hpre htrim) l hl)
  · intro l hl
    exact fun hmem => splitOnL_single_no_nl '\n' _ l hl hmem

/-- The capture-free status of all lines of a rendered section block after
the header. -/
theorem block_rest_capture_none (g : List Str) (hg : g ≠ [])
    (hocc : ∀ e ∈ g, ¬ occursPred "\n## ".data e)
    (hpre : ∀ e ∈ g, ¬ ("## ".data <+: e))
    (htrim : ∀ e ∈ g, trimL e ≠ []) :
    ∀ l ∈ ([] :: (linesOf (List.intercalate sepMarker g) ++ [[]])),
      sectionHeaderCapture l = none := by
  intro l hl
  rcases List.mem_cons.mp hl with h | h
  · subst h; decide
  · rcases List.mem_append.mp h with h2 | h2
    · exact (eLines_facts g hg hocc hpre htrim).1 l h2
    · rw [List.mem_singleton.mp h2]; decide

theorem strip_section_last (t : Str) (g : List Str) (ht : t ∈ TOPIC_ORDER)
    (hg : g ≠ [])
    (hocc : ∀ e ∈ g, ¬ occursPred "\n## ".data e)
    (hpre : ∀ e ∈ g, ¬ ("## ".data <+: e))
    (htrim : ∀ e ∈ g, trimL e ≠ []) :
    stripSectionHeader (intercalateNL (("## ".data ++ getTopicEmoji t ++ [' '] ++ t) ::
      [] :: (linesOf (List.intercalate sepMarker g) ++ [[]]))) =
      List.intercalate sepMarker g ++ ['\n'] := by
  obtain ⟨hcap, htest, hnl, hlen⟩ := topic_order_facts t ht
  obtain ⟨_, hnle, hne⟩ := eLines_facts g hg hocc hpre htrim
  rw [stripSectionHeader_eq _ _ ?hpre hlen hnl ?hnlr (by simp)]
  · rw [intercalateNL_snoc_empty _ hne, intercalateNL_linesOf]
  case hpre =>
    exact List.isPrefixOf_iff_prefix.mpr (by
      rw [List.append_assoc, List.append_assoc]
      exact List.prefix_append _ _)
  case hnlr =>
    intro l hl
    rcases List.mem_append.mp hl with h2 | h2
    · exact hnle l h2
    · rw [List.mem_singleton.mp h2]; simp

theorem strip_section_mid (t : Str) (g : List Str) (ht : t ∈ TOPIC_ORDER)
    (hg : g ≠ [])
    (hocc : ∀ e ∈ g, ¬ occursPred "\n## ".data e)
    (hpre : ∀ e ∈ g, ¬ ("## ".data <+: e))
    (htrim : ∀ e ∈ g, trimL e ≠ []) :
    stripSectionHeader (intercalateNL (("## ".data ++ getTopicEmoji t ++ [' '] ++ t) ::
      [] :: (linesOf (List.intercalate sepMarker g) ++ [[]])) ++ ['\n']) =
      List.intercalate sepMarker g ++ ['\n', '\n'] := by
  obtain ⟨hcap, htest, hnl, hlen⟩ := topic_order_facts t ht
  obtain ⟨_, hnle, hne⟩ := eLines_facts g hg hocc hpre htrim
  have hsnoc := intercalateNL_snoc_empty
    (("## ".data ++ getTopicEmoji t ++ [' '] ++ t) ::
      [] :: (linesOf (List.intercalate sepMarker g) ++ [[]])) (by simp)
  rw [← hsnoc]
  have hshape : (("## ".data ++ getTopicEmoji t ++ [' '] ++ t) ::
      [] :: (linesOf (List.intercalate sepMarker g) ++ [[]])) ++ [[]] =
      ("## ".data ++ getTopicEmoji t ++ [' '] ++ t) ::
      [] :: (linesOf (List.intercalate sepMarker g) ++ [[], []]) := by
    simp
  rw [hshape]
  rw [stripSectionHeader_eq _ _ ?hpre hlen hnl ?hnlr (by simp)]
  · rw [show (linesOf (List.intercalate sepMarker g) ++ [[], []]) =
      (linesOf (List.intercalate sepMarker g) ++ [[]]) ++ [[]] from by simp]
    rw [intercalateNL_snoc_empty _ (by simp), intercalateNL_snoc_empty _ hne,
      intercalateNL_linesOf]
    simp
  case hpre =>
    exact List.isPrefixOf_iff_prefix.mpr (by
      rw [List.append_assoc, List.append_assoc]
      exact List.prefix_append _ _)
  case hnlr =>
    intro l hl
    rcases List.mem_append.mp hl with h2 | h2
    · exact hnle l h2
    · rcases List.mem_cons.mp h2 with h3 | h3
      · rw [h3]; simp
      · rw [List.mem_singleton.mp h3]; simp

/-- The full section pipeline of parseDigestMarkdown applied to the rendered
body lines recovers one trimmed entry per rendered entry, tagged with its
section topic. -/
theorem pipeline_blocks :
    ∀ (present : List (Str × List Str)),
      (∀ tg ∈ present, tg.1 ∈ TOPIC_ORDER ∧ tg.2 ≠ [] ∧ ∀ e ∈ tg.2, goodEntry e) →
      present ≠ [] →
      ((buildSections (present.flatMap fun tg =>
          ("## ".data ++ getTopicEmoji tg.1 ++ [' '] ++ tg.1) :: [] ::
          (linesOf (List.intercalate sepMarker tg.2) ++ [[]]))).flatMap fun tp =>
        (splitOnL sepMarker (stripSectionHeader tp.2)).filterMap fun raw =>
          if trimL raw = [] then none else some (trimL raw, some tp.1)) =
      present.flatMap fun tg => tg.2.map fun e => (trimL e, some tg.1) := by
  intro present
  induction present with
  | nil => intro _ h; exact absurd rfl h
  | cons tg rest ih =>
    intro hgood _
    obtain ⟨ht, hgne, hge⟩ := hgood tg (by simp)
    have htrim : ∀ e ∈ tg.2, trimL e ≠ [] := fun e he => (hge e he).1
    have hocc5 : ∀ e ∈ tg.2, ¬ occursPred "\n\n---".data e := fun e he => (hge e he).2.1
    have hoccH : ∀ e ∈ tg.2, ¬ occursPred "\n## ".data e := fun e he => (hge e he).2.2.1
    have hpreH : ∀ e ∈ tg.2, ¬ ("## ".data <+: e) := fun e he => (hge e he).2.2.2
    cases rest with
    | nil =>
      rw [List.flatMap_cons, List.flatMap_nil, List.append_nil]
      rw [buildSections_single _ _ _ tg.1 rfl (topic_order_facts tg.1 ht).1
        (block_rest_capture_none tg.2 hgne hoccH hpreH htrim)]
      simp only [List.flatMap_cons, List.flatMap_nil, List.append_nil]
      rw [strip_section_last tg.1 tg.2 ht hgne hoccH hpreH htrim]
      rw [split_trim_joined (some tg.1) tg.2 hgne hocc5 htrim ['\n'] (Or.inl rfl)]
    | cons tg2 rest2 =>
      obtain ⟨ht2, hgne2, _⟩ := hgood tg2 (by simp)
      have hh2 : (sectionHeaderCapture ("## ".data ++ getTopicEmoji tg2.1 ++ [' '] ++ tg2.1)).isSome = true := by
        rw [(topic_order_facts tg2.1 ht2).1]
        rfl
      rw [List.flatMap_cons]
      rw [buildSections_cons _ _ _ _ tg.1 rfl (topic_order_facts tg.1 ht).1
        (block_rest_capture_none tg.2 hgne hoccH hpreH htrim)
        ("## ".data ++ getTopicEmoji tg2.1 ++ [' '] ++ tg2.1)
        (([] :: (linesOf (List.intercalate sepMarker tg2.2) ++ [[]])) ++
          (rest2.flatMap fun tg => ("## ".data ++ getTopicEmoji tg.1 ++ [' '] ++ tg.1) :: [] ::
            (linesOf (List.intercalate sepMarker tg.2) ++ [[]])))
        (by rw [List.flatMap_cons]; rfl) hh2]
      rw [List.flatMap_cons]
      rw [strip_section_mid tg.1 tg.2 ht hgne hoccH hpreH htrim]
      rw [split_trim_joined (some tg.1) tg.2 hgne hocc5 htrim ['\n', '\n'] (Or.inr rfl)]
      rw [ih (fun x hx => hgood x (List.mem_cons_of_mem _ hx)) (by simp)]
      rw [List.flatMap_cons, List.flatMap_cons, List.flatMap_cons]

/-! ## Stable-sort structure of the digest ordering -/

theorem flatMap_congr_mem {α β : Type} (l : List α) (f g : α → List β)
    (h : ∀ a ∈ l, f a = g a) : l.flatMap f = l.flatMap g := by
  induction l with
  | nil => rfl
  | cons x xs ih =>
    rw [List.flatMap_cons, List.flatMap_cons, h x (by simp),
      ih fun a ha => h a (List.mem_cons_of_mem _ ha)]

theorem insertByKey_low {α : Type} (key : α → Nat) (x : α) :
    ∀ (A B : List α), (∀ y ∈ A, key y < key x) →
      insertByKey key x (A ++ B) = A ++ insertByKey key x B := by
  intro A
  induction A with
  | nil => intro B _; rfl
  | cons a A2 ih =>
    intro B h
    have ha : key a < key x := h a (by simp)
    rw [List.cons_append]
    show (if key x ≤ key a then x :: a :: (A2 ++ B) else a :: insertByKey key x (A2 ++ B)) = _
    rw [if_neg (by omega), ih B fun y hy => h y (List.mem_cons_of_mem _ hy)]
    rfl

theorem insertByKey_high {α : Type} (key : α → Nat) (x : α) (B : List α)
    (h : ∀ y ∈ B, key x ≤ key y) : insertByKey key x B = x :: B := by
  cases B with
  | nil => rfl
  | cons b B2 =>
    show (if key x ≤ key b then x :: b :: B2 else b :: insertByKey key x B2) = _
    rw [if_pos (h b (by simp))]

/-- Counting-sort characterization of the stable sort: the sorted list is the
concatenation, over ascending key values, of the key-equal segments of the
input in input order. -/
theorem sortByKey_segments {α : Type} (key : α → Nat) (N : Nat) :
    ∀ (l : List α), (∀ x ∈ l, key x < N) →
      (List.range N).flatMap (fun r => l.filter fun y => key y = r) =
        sortByKey key l := by
  intro l
  induction l with
  | nil =>
    intro _
    rw [show sortByKey key ([] : List α) = [] from rfl]
    rw [flatMap_congr_mem _ _ (fun _ => []) (by intro a _; rfl)]
    simp
  | cons x xs ih =>
    intro h
    have hx : key x < N := h x (by simp)
    have hxs : ∀ y ∈ xs, key y < N := fun y hy => h y (List.mem_cons_of_mem _ hy)
    have hsplitN : N = (key x + 1) + (N - (key x + 1)) := by omega
    have hrange : List.range N =
        (List.range (key x) ++ [key x]) ++
          (List.range (N - (key x + 1))).map (fun j => (key x + 1) + j) := by
      conv_lhs => rw [hsplitN]
      rw [List.range_add, List.range_succ]
    have hseg : ∀ (t : List α), (List.range N).flatMap (fun r => t.filter fun y => key y = r) =
        ((List.range (key x)).flatMap fun r => t.filter fun y => key y = r) ++
        (t.filter fun y => key y = key x) ++
        (((List.range (N - (key x + 1))).map fun j => (key x + 1) + j).flatMap
          fun r => t.filter fun y => key y = r) := by
      intro t
      rw [hrange, List.flatMap_append, List.flatMap_append]
      rw [show ([key x] : List Nat).flatMap (fun r => t.filter fun y => key y = r) =
        t.filter (fun y => key y = key x) from by simp]
    rw [hseg (x :: xs)]
    have hlow : ((List.range (key x)).flatMap fun r => (x :: xs).filter fun y => key y = r) =
        ((List.range (key x)).flatMap fun r => xs.filter fun y => key y = r) := by
      refine flatMap_congr_mem _ _ _ ?_
      intro r hr
      rw [List.filter_cons, if_neg (by simp [Nat.ne_of_gt (List.mem_range.mp hr)])]
    have heq : ((x :: xs).filter fun y => key y = key x) =
        x :: (xs.filter fun y => key y = key x) := by
      rw [List.filter_cons, if_pos (by simp)]
    have hhigh : (((List.range (N - (key x + 1))).map fun j => (key x + 1) + j).flatMap
          fun r => (x :: xs).filter fun y => key y = r) =
        (((List.range (N - (key x + 1))).map fun j => (key x + 1) + j).flatMap
          fun r => xs.filter fun y => key y = r) := by
      refine flatMap_congr_mem _ _ _ ?_
      intro r hr
      obtain ⟨j, _, hj⟩ := List.mem_map.mp hr
      rw [List.filter_cons, if_neg (by simp; omega)]
    rw [hlow, heq, hhigh]
    rw [show sortByKey key (x :: xs) = insertByKey key x (sortByKey key xs) from rfl]
    rw [← ih hxs, hseg xs]
    conv_rhs => rw [List.append_assoc]
    rw [insertByKey_low key x _ _ ?hA]
    case hA =>
      intro y hy
      obtain ⟨r, hr, hy2⟩ := List.mem_flatMap.mp hy
      have := List.of_mem_filter hy2
      have hlt := List.mem_range.mp hr
      simp only [decide_eq_true_eq] at this
      omega
    rw [insertByKey_high key x _ ?hB]
    case hB =>
      intro y hy
      rcases List.mem_append.mp hy with h1 | h1
      · have := List.of_mem_filter h1
        simp only [decide_eq_true_eq] at this
        omega
      · obtain ⟨r, hr, hy2⟩ := List.mem_flatMap.mp h1
        obtain ⟨j, _, hj⟩ := List.mem_map.mp hr
        have := List.of_mem_filter hy2
        simp only [decide_eq_true_eq] at this
        omega
    simp [List.append_assoc]

theorem insertByKey_perm {α : Type} (key : α → Nat) (x : α) :
    ∀ (l : List α), (insertByKey key x l).Perm (x :: l) := by
  intro l
  induction l with
  | nil => exact List.Perm.refl _
  | cons y ys ih =>
    show (if key x ≤ key y then x :: y :: ys else y :: insertByKey key x ys).Perm _
    by_cases h : key x ≤ key y
    · rw [if_pos h]
    · rw [if_neg h]
      exact (List.Perm.cons y ih).trans (List.Perm.swap x y ys)

theorem sortByKey_perm {α : Type} (key : α → Nat) :
    ∀ (l : List α), (sortByKey key l).Perm l := by
  intro l
  induction l with
  | nil => exact List.Perm.refl _
  | cons x xs ih =>
    exact (insertByKey_perm key x (sortByKey key xs)).trans (List.Perm.cons x ih)

theorem map_getD_range {α : Type} (l : List α) (d : α) :
    (List.range l.length).map (fun i => l.getD i d) = l := by
  refine List.ext_getElem (by simp) ?_
  intro n h1 h2
  rw [List.getElem_map, List.getElem_range]
  exact List.getD_eq_getElem l d h2

theorem filterMap_guard_flatMap {α β : Type} [DecidableEq β] (f : α → List β) (l : List α) :
    (l.filterMap fun t => if f t = [] then none else some (t, f t)).flatMap
      (fun tg => tg.2) = l.flatMap f := by
  induction l with
  | nil => rfl
  | cons x xs ih =>
    rw [List.filterMap_cons, List.flatMap_cons]
    by_cases h : f x = []
    · rw [if_pos h] at *
      simp only [h, List.nil_append]
      exact ih
    · rw [if_neg h]
      simp only [List.flatMap_cons]
      rw [ih]

theorem filterMap_if_eq_map_filter {α β : Type} (p : α → Bool) (f : α → β) :
    ∀ (l : List α),
      (l.filterMap fun a => if p a then some (f a) else none) =
        (l.filter p).map f := by
  intro l
  induction l with
  | nil => rfl
  | cons x xs ih =>
    rw [List.filterMap_cons, List.filter_cons]
    by_cases h : p x
    · rw [if_pos h, if_pos h, List.map_cons, ← ih]
    · rw [if_neg h, if_neg h, ← ih]

theorem filter_sorted_segment {α : Type} (key : α → Nat) (l : List α) (r0 : Nat) :
    ∀ (rs : List Nat), rs.Nodup → r0 ∈ rs →
      ((rs.flatMap fun r => l.filter fun y => key y = r).filter fun y => key y = r0)
        = l.filter fun y => key y = r0 := by
  intro rs
  induction rs with
  | nil => intro _ h; simp at h
  | cons r rs2 ih =>
    intro hnd hmem
    rw [List.flatMap_cons, List.filter_append]
    by_cases h : r = r0
    · subst h
      have h1 : ((l.filter fun y => key y = r).filter fun y => key y = r) =
          l.filter fun y => key y = r := by
        rw [List.filter_filter]
        refine List.filter_congr ?_
        intro a _
        by_cases ha : key a = r <;> simp [ha]
      have h2 : ((rs2.flatMap fun r2 => l.filter fun y => key y = r2).filter
          fun y => key y = r) = [] := by
        rw [List.filter_eq_nil_iff]
        intro a ha
        obtain ⟨r2, hr2, ha2⟩ := List.mem_flatMap.mp ha
        have := List.of_mem_filter ha2
        simp only [decide_eq_true_eq] at this ⊢
        intro hcon
        rw [hcon] at this
        subst this
        exact (List.nodup_cons.mp hnd).1 hr2
      rw [h1, h2, List.append_nil]
    · have h1 : ((l.filter fun y => key y = r).filter fun y => key y = r0) = [] := by
        rw [List.filter_eq_nil_iff]
        intro a ha
        have := List.of_mem_filter ha
        simp only [decide_eq_true_eq] at this ⊢
        rw [this]
        exact h
      rw [h1, List.nil_append]
      exact ih (List.nodup_cons.mp hnd).2 (by
        rcases List.mem_cons.mp hmem with hc | hc
        · exact absurd hc.symm h
        · exact hc)

/-! ## Topic rank facts -/

theorem topicRank_lt (t : Str) (ht : t ∈ TOPIC_ORDER) :
    topicRank t < TOPIC_ORDER.length := by
  fin_cases ht <;> decide

theorem getD_topicRank (t : Str) (ht : t ∈ TOPIC_ORDER) :
    TOPIC_ORDER.getD (topicRank t) [] = t := by
  fin_cases ht <;> decide

theorem topicRank_getD (r : Nat) (hr : r < TOPIC_ORDER.length) :
    topicRank (TOPIC_ORDER.getD r []) = r := by
  rw [show TOPIC_ORDER.length = 6 from rfl] at hr
  interval_cases r <;> decide

theorem topic_order_nodup : TOPIC_ORDER.Nodup := by decide

theorem default_topic_mem : DEFAULT_TOPIC ∈ TOPIC_ORDER := by decide

theorem topic_order_goodItem : ∀ t ∈ TOPIC_ORDER, goodItem t := by
  intro t ht
  fin_cases ht <;> exact ⟨by decide, by decide, by decide⟩

/-! ## Line structure of the rendered document -/

theorem linesOf_cons_nl (s : Str) : linesOf ('\n' :: s) = [] :: linesOf s := by
  have hp : (['\n'] : Str).isPrefixOf ('\n' :: s) = true :=
    List.isPrefixOf_iff_prefix.mpr ⟨s, rfl⟩
  rw [linesOf, splitOnL_cons_step _ (by simp), if_pos hp]
  simp [linesOf, splitOnL]

theorem natToChars_no_nl (n : Nat) : '\n' ∉ natToChars n := by
  intro h
  obtain ⟨d, hd⟩ := mem_natToChars _ _ h
  exact (digitChar_props d).1 hd.symm

theorem padNum_no_nl (w n : Nat) : '\n' ∉ padNum w n := by
  intro h
  unfold padNum at h
  rcases List.mem_append.mp h with h2 | h2
  · exact absurd (List.eq_of_mem_replicate h2) (by decide)
  · exact natToChars_no_nl n h2

theorem formatDate_no_nl (dt : JsDate) : '\n' ∉ formatDate dt := by
  intro h
  unfold formatDate at h
  rcases List.mem_append.mp h with h2 | h2
  · rcases List.mem_append.mp h2 with h3 | h3
    · rcases List.mem_append.mp h3 with h4 | h4
      · rcases List.mem_append.mp h4 with h5 | h5
        · exact padNum_no_nl _ _ h5
        · exact absurd (List.mem_singleton.mp h5) (by decide)
      · exact padNum_no_nl _ _ h4
    · exact absurd (List.mem_singleton.mp h3) (by decide)
  · exact padNum_no_nl _ _ h2

theorem getD_append_add {α : Type} (A B : List α) (d : α) (k : Nat) :
    (A ++ B).getD (A.length + k) d = B.getD k d := by
  rw [List.getD_append_right _ _ _ _ (by omega)]
  congr 1
  omega

theorem drop_append_add {α : Type} (A B : List α) (k : Nat) :
    (A ++ B).drop (A.length + k) = B.drop k := by
  rw [List.drop_append_eq_append_drop, List.drop_eq_nil_of_le (by omega)]
  simp

theorem getD_mem_of_lt {α : Type} (l : List α) (d : α) (i : Nat) (h : i < l.length) :
    l.getD i d ∈ l := by
  rw [List.getD_eq_getElem l d h]
  exact List.getElem_mem h

/-- An occurrence of a newline followed by a newline-free pattern inside a
join of newline-free lines puts the pattern at the start of a non-first
line. -/
theorem occ_nl_intercalate (p : Str) (hp : '\n' ∉ p) :
    ∀ (ls : List Str), (∀ l ∈ ls, '\n' ∉ l) →
      occursPred ('\n' :: p) (intercalateNL ls) →
      ∃ l ∈ ls.tail, p <+: l := by
  intro ls
  induction ls with
  | nil =>
    intro _ h
    obtain ⟨i, hi⟩ := h
    have := hi.length_le
    simp [intercalateNL, List.intercalate] at this
  | cons x rest ih =>
    intro hnl h
    cases rest with
    | nil =>
      rw [intercalateNL_single] at h
      obtain ⟨i, hi⟩ := h
      have hmem : '\n' ∈ x :=
        List.drop_subset i x (hi.subset (List.mem_cons_self _ _))
      exact absurd hmem (hnl x (by simp))
    | cons y ys =>
      rw [intercalateNL_cons] at h
      rw [List.append_assoc] at h
      rcases occursPred_append_elim _ x _ h with ⟨i, hilt, hpre⟩ | h2
      · exfalso
        have hhead : ((x ++ (['\n'] ++ intercalateNL (y :: ys))).drop i).getD 0 ' ' = '\n' :=
          prefix_getD _ _ hpre 0 (by simp) ' '
        rw [drop_getD, Nat.add_zero, List.getD_append _ _ _ _ hilt] at hhead
        have hmem : '\n' ∈ x := by
          rw [← hhead]
          exact getD_mem_of_lt x ' ' i hilt
        exact hnl x (by simp) hmem
      · obtain ⟨i, hi⟩ := h2
        cases i with
        | zero =>
          simp only [List.singleton_append, List.drop_zero] at hi
          obtain ⟨w, hw⟩ := hi
          simp only [List.cons_append, List.cons.injEq] at hw
          have hpre2 : p <+: intercalateNL (y :: ys) := ⟨w, hw.2⟩
          cases ys with
          | nil =>
            rw [intercalateNL_single] at hpre2
            exact ⟨y, by simp, hpre2⟩
          | cons z zs =>
            rw [intercalateNL_cons] at hpre2
            by_cases hlen : p.length ≤ y.length
            · refine ⟨y, by simp, ?_⟩
              rw [List.append_assoc] at hpre2
              exact prefix_cut _ _ _ hpre2 hlen
            · exfalso
              push_neg at hlen
              have hstep : ((y ++ ['\n']) ++ intercalateNL (z :: zs)).getD y.length ' ' = '\n' := by
                rw [List.getD_append _ _ _ _ (by simp)]
                rw [show y.length = y.length + 0 from rfl, getD_append_add]
                rfl
              have hval := prefix_getD p _ hpre2 y.length hlen ' '
              rw [hstep] at hval
              have hmem : '\n' ∈ p := by
                rw [hval]
                exact getD_mem_of_lt p ' ' y.length hlen
              exact hp hmem
        | succ j =>
          simp only [List.singleton_append, List.drop_succ_cons] at hi
          obtain ⟨l, hl, hlp⟩ := ih (fun l hl => hnl l (List.mem_cons_of_mem _ hl)) ⟨j, hi⟩
          exact ⟨l, List.mem_cons_of_mem _ hl, hlp⟩

theorem dash_prefix_head (l : Str) (h : "---".data <+: l) : l.headD ' ' = '-' := by
  cases l with
  | nil =>
    have := h.length_le
    simp at this
  | cons c cs =>
    have hc := prefix_head_eq "---".data c cs '-' "--".data rfl h
    simp only [List.headD_cons]
    exact hc.symm

theorem title_prefix_head (l : Str) (h : titleMarker <+: l) : l.headD ' ' = '#' := by
  cases l with
  | nil =>
    have := h.length_le
    simp [titleMarker] at this
  | cons c cs =>
    have hc := prefix_head_eq titleMarker c cs '#' " Newsletter Digest — ".data rfl h
    simp only [List.headD_cons]
    exact hc.symm

/-- findTitleIdx locates the title line: every earlier line starts with a
character other than the hash, the title line extends the marker, and it is
followed by the empty line of the rendered double newline. -/
theorem findTitle_concrete (pre post : List Str) (t : Str)
    (hpre : ∀ l ∈ pre, l.headD ' ' ≠ '#')
    (ht : titleMarker <+: t) (hlen : titleMarker.length < t.length)
    (hpost : post ≠ []) :
    findTitleIdx (pre ++ t :: [] :: post) = some pre.length := by
  unfold findTitleIdx
  have hplen : 0 < post.length := List.length_pos.mpr hpost
  refine find?_range_eq_some _ _ pre.length (by simp) ?_ ?_
  · have h0 : (pre ++ t :: [] :: post).getD pre.length [] = t := by
      rw [show pre.length = pre.length + 0 from rfl, getD_append_add]
      rfl
    have h1 : (pre ++ t :: [] :: post).getD (pre.length + 1) [' '] = [] := by
      rw [getD_append_add]
      rfl
    rw [h0, h1]
    simp only [Bool.and_eq_true, decide_eq_true_eq, List.isEmpty_nil, and_true]
    refine ⟨⟨List.isPrefixOf_iff_prefix.mpr ht, hlen⟩, ?_⟩
    simp only [List.length_append, List.length_cons]
    omega
  · intro j hj
    have hgd : (pre ++ t :: [] :: post).getD j [] = pre.getD j [] :=
      List.getD_append _ _ _ _ hj
    rw [hgd]
    have hmem : pre.getD j [] ∈ pre := getD_mem_of_lt pre [] j hj
    have hhd := hpre _ hmem
    have hnp : titleMarker.isPrefixOf (pre.getD j []) = false := by
      by_contra hc
      rw [Bool.not_eq_false] at hc
      exact hhd (title_prefix_head _ (List.isPrefixOf_iff_prefix.mp hc))
    rw [hnp]
    simp

theorem intercalate_cons_of_ne_nil (sep x : Str) (l : List Str) (h : l ≠ []) :
    List.intercalate sep (x :: l) = x ++ sep ++ List.intercalate sep l := by
  cases l with
  | nil => exact absurd rfl h
  | cons y ys => exact intercalate_cons2 sep x y ys

theorem intercalateNL_cons_ne (x : Str) (l : List Str) (h : l ≠ []) :
    intercalateNL (x :: l) = x ++ ['\n'] ++ intercalateNL l := by
  cases l with
  | nil => exact absurd rfl h
  | cons y ys => exact intercalateNL_cons x y ys

/-- The rendered body joined with the trailing newline decomposes into the
per-section line blocks. -/
theorem body_lines :
    ∀ (present : List (Str × List Str)),
      present ≠ [] →
      (∀ tg ∈ present, '\n' ∉ ("## ".data ++ getTopicEmoji tg.1 ++ [' '] ++ tg.1)) →
      linesOf (List.intercalate "\n\n".data (present.map fun tg =>
          ("## ".data ++ getTopicEmoji tg.1 ++ [' '] ++ tg.1) ++ "\n\n".data ++
          List.intercalate sepMarker tg.2) ++ ['\n']) =
      present.flatMap fun tg =>
        ("## ".data ++ getTopicEmoji tg.1 ++ [' '] ++ tg.1) :: [] ::
        (linesOf (List.intercalate sepMarker tg.2) ++ [[]]) := by
  intro present
  induction present with
  | nil => intro h _; exact absurd rfl h
  | cons tg rest ih =>
    intro _ hnl
    have hnl1 := hnl tg (by simp)
    cases rest with
    | nil =>
      rw [List.map_cons, List.map_nil,
        show List.intercalate "\n\n".data
          [("## ".data ++ getTopicEmoji tg.1 ++ [' '] ++ tg.1) ++ "\n\n".data ++
            List.intercalate sepMarker tg.2] =
          ("## ".data ++ getTopicEmoji tg.1 ++ [' '] ++ tg.1) ++ "\n\n".data ++
            List.intercalate sepMarker tg.2 from by simp [List.intercalate]]
      have hshape : (("## ".data ++ getTopicEmoji tg.1 ++ [' '] ++ tg.1) ++ "\n\n".data ++
            List.intercalate sepMarker tg.2) ++ ['\n'] =
          ("## ".data ++ getTopicEmoji tg.1 ++ [' '] ++ tg.1) ++ ['\n'] ++
            ('\n' :: (List.intercalate sepMarker tg.2 ++ ['\n'] ++ [])) := by
        simp [List.append_assoc]
      rw [hshape, linesOf_append, linesOf_no_nl _ hnl1, linesOf_cons_nl, linesOf_append]
      rw [show linesOf ([] : Str) = [[]] from rfl]
      rw [List.flatMap_cons, List.flatMap_nil]
      simp
    | cons tg2 rest2 =>
      rw [List.map_cons, intercalate_cons_of_ne_nil _ _ _ (by simp)]
      have hshape : (("## ".data ++ getTopicEmoji tg.1 ++ [' '] ++ tg.1) ++ "\n\n".data ++
            List.intercalate sepMarker tg.2) ++ "\n\n".data ++
            List.intercalate "\n\n".data ((tg2 :: rest2).map fun tg =>
              ("## ".data ++ getTopicEmoji tg.1 ++ [' '] ++ tg.1) ++ "\n\n".data ++
              List.intercalate sepMarker tg.2) ++ ['\n'] =
          ("## ".data ++ getTopicEmoji tg.1 ++ [' '] ++ tg.1) ++ ['\n'] ++
            ('\n' :: (List.intercalate sepMarker tg.2 ++ ['\n'] ++
              ('\n' :: (List.intercalate "\n\n".data ((tg2 :: rest2).map fun tg =>
                ("## ".data ++ getTopicEmoji tg.1 ++ [' '] ++ tg.1) ++ "\n\n".data ++
                List.intercalate sepMarker tg.2) ++ ['\n'])))) := by
        simp [List.append_assoc]
      rw [hshape, linesOf_append, linesOf_no_nl _ hnl1, linesOf_cons_nl, linesOf_append,
        linesOf_cons_nl, ih (by simp) (fun x hx => hnl x (List.mem_cons_of_mem _ hx))]
      rw [List.flatMap_cons]
      simp [List.append_assoc]

/-! ## Frontmatter region of the rendered document -/

theorem fm_lines_no_nl (d cnt : Str) (idsR tpsR : List Str)
    (hd : '\n' ∉ d) (hcnt : '\n' ∉ cnt)
    (hids : ∀ x ∈ idsR, '\n' ∉ x) (htps : ∀ x ∈ tpsR, '\n' ∉ x) :
    ∀ l ∈ fmLinesOf d cnt idsR tpsR, '\n' ∉ l := by
  intro l hl
  unfold fmLinesOf at hl
  rcases List.mem_append.mp hl with h1 | h1
  · rcases List.mem_append.mp h1 with h2 | h2
    · rcases List.mem_append.mp h2 with h3 | h3
      · rcases List.mem_cons.mp h3 with h | h3
        · subst h; decide
        rcases List.mem_cons.mp h3 with h | h3
        · subst h; decide
        rcases List.mem_cons.mp h3 with h | h3
        · subst h; decide
        rcases List.mem_cons.mp h3 with h | h3
        · subst h
          intro hm
          rcases List.mem_append.mp hm with hm2 | hm2
          · exact absurd hm2 (by decide)
          · exact hd hm2
        rcases List.mem_cons.mp h3 with h | h3
        · subst h
          intro hm
          rcases List.mem_append.mp hm with hm2 | hm2
          · exact absurd hm2 (by decide)
          · exact hcnt hm2
        rcases List.mem_cons.mp h3 with h | h3
        · subst h; decide
        · simp at h3
      · obtain ⟨x, hx, hlx⟩ := List.mem_map.mp h3
        subst hlx
        intro hm
        rcases List.mem_append.mp hm with hm2 | hm2
        · exact absurd hm2 (by decide)
        · exact hids x hx hm2
    · rw [List.mem_singleton.mp h2]; decide
  · obtain ⟨x, hx, hlx⟩ := List.mem_map.mp h1
    subst hlx
    intro hm
    rcases List.mem_append.mp hm with hm2 | hm2
    · exact absurd hm2 (by decide)
    · exact htps x hx hm2

theorem fm_body_eq (d cnt : Str) (idsR tpsR : List Str)
    (hids : idsR ≠ []) (htps : tpsR ≠ []) :
    intercalateNL (fmLinesOf d cnt idsR tpsR) =
    "tags:\n  - newsletter\n  - digest\ncreated: ".data ++ d ++
    "\nnewsletter_count: ".data ++ cnt ++ "\nemail_ids:\n".data ++
    intercalateNL (idsR.map fun x => "  - ".data ++ x) ++
    "\nemail_topics:\n".data ++
    intercalateNL (tpsR.map fun x => "  - ".data ++ x) := by
  unfold fmLinesOf
  have h1 : idsR.map (fun x => "  - ".data ++ x) ≠ [] := by
    simpa using hids
  have h2 : tpsR.map (fun x => "  - ".data ++ x) ≠ [] := by
    simpa using htps
  rw [intercalateNL_append _ _ (by simp) h2]
  rw [intercalateNL_append _ _ (by simp) (by simp)]
  rw [intercalateNL_append _ _ (by simp) h1]
  rw [intercalateNL_single]
  rw [intercalateNL_cons, intercalateNL_cons, intercalateNL_cons, intercalateNL_cons,
    intercalateNL_cons, intercalateNL_single]
  simp [List.append_assoc]

theorem fm_no_dash_occ (d cnt : Str) (idsR tpsR : List Str)
    (hnl : ∀ l ∈ fmLinesOf d cnt idsR tpsR, '\n' ∉ l) :
    ¬ occursPred "\n---".data (intercalateNL (fmLinesOf d cnt idsR tpsR)) := by
  intro hocc
  have hocc2 : occursPred ('\n' :: "---".data)
      (intercalateNL (fmLinesOf d cnt idsR tpsR)) := hocc
  obtain ⟨l, hl, hlp⟩ := occ_nl_intercalate "---".data (by decide) _ hnl hocc2
  have hhd := dash_prefix_head l hlp
  unfold fmLinesOf at hl
  simp only [List.cons_append, List.tail_cons] at hl
  rcases List.mem_cons.mp hl with h | hl
  · subst h; simp at hhd
  rcases List.mem_cons.mp hl with h | hl
  · subst h; simp at hhd
  rcases List.mem_cons.mp hl with h | hl
  · subst h; simp at hhd
  rcases List.mem_cons.mp hl with h | hl
  · subst h; simp at hhd
  rcases List.mem_cons.mp hl with h | hl
  · subst h; simp at hhd
  rcases List.mem_append.mp hl with h1 | h1
  · rcases List.mem_append.mp h1 with h2 | h2
    · obtain ⟨x, _, hlx⟩ := List.mem_map.mp h2
      subst hlx
      simp at hhd
    · rw [List.mem_singleton.mp h2] at hhd
      simp at hhd
  · obtain ⟨x, _, hlx⟩ := List.mem_map.mp h1
    subst hlx
    simp at hhd

theorem parseDigestMarkdown_emailIds (content : Str) :
    (parseDigestMarkdown content).emailIds = (parseFmPair content).1 := rfl

theorem parseDigestMarkdown_entries (content : Str) :
    (parseDigestMarkdown content).entries = (parsePairs content).map (fun x => x.1) := rfl

theorem parseDigestMarkdown_topics (content : Str) :
    (parseDigestMarkdown content).topics =
      (if (parseFmPair content).2 ≠ [] then (parseFmPair content).2
       else if (parsePairs content).filterMap (fun x => x.2) ≠ [] then
         (parsePairs content).filterMap (fun x => x.2)
       else ((parsePairs content).map (fun x => x.1)).map fun _ => DEFAULT_TOPIC) := rfl

theorem parse_doc_fm (d cnt : Str) (idsR tpsR : List Str) (SB : Str)
    (hd : '\n' ∉ d) (hcnt : '\n' ∉ cnt)
    (hids : ∀ x ∈ idsR, goodItem x) (htps : ∀ x ∈ tpsR, goodItem x)
    (hidsne : idsR ≠ []) (htpsne : tpsR ≠ []) :
    (parseDigestMarkdown (docOf d cnt idsR tpsR SB)).emailIds = idsR ∧
    (parseDigestMarkdown (docOf d cnt idsR tpsR SB)).topics = tpsR := by
  have hnl : ∀ l ∈ fmLinesOf d cnt idsR tpsR, '\n' ∉ l :=
    fm_lines_no_nl d cnt idsR tpsR hd hcnt
      (fun x hx => (hids x hx).2.1) (fun x hx => (htps x hx).2.1)
  have hocc := fm_no_dash_occ d cnt idsR tpsR hnl
  have hshape : docOf d cnt idsR tpsR SB =
      "---\n".data ++ (intercalateNL (fmLinesOf d cnt idsR tpsR) ++ "\n---".data ++
        ("\n\n# Newsletter Digest — ".data ++ d ++ "\n\n".data ++ SB ++ "\n".data)) := by
    rw [fm_body_eq d cnt idsR tpsR hidsne htpsne]
    unfold docOf
    simp [List.append_assoc]
  have hpre : ("---\n".data : Str).isPrefixOf (docOf d cnt idsR tpsR SB) = true := by
    rw [hshape]
    exact List.isPrefixOf_iff_prefix.mpr (List.prefix_append _ _)
  have hdrop : (docOf d cnt idsR tpsR SB).drop 4 =
      intercalateNL (fmLinesOf d cnt idsR tpsR) ++ "\n---".data ++
        ("\n\n# Newsletter Digest — ".data ++ d ++ "\n\n".data ++ SB ++ "\n".data) := by
    rw [hshape, show (4 : Nat) = ("---\n".data : Str).length + 0 from rfl, drop_append_add,
      List.drop_zero, List.append_assoc]
  have hX : ("\n---".data ++
      ("\n\n# Newsletter Digest — ".data ++ d ++ "\n\n".data ++ SB ++ "\n".data)).getD 0 ' ' =
      '\n' := by
    rw [List.getD_append _ _ _ _ (by decide)]
    rfl
  have hspan : ∀ t, 0 < t → t < ("\n---".data : Str).length →
      "\n---".data.take t <:+ intercalateNL (fmLinesOf d cnt idsR tpsR) →
      ¬ "\n---".data.drop t <+: ("\n---".data ++
        ("\n\n# Newsletter Digest — ".data ++ d ++ "\n\n".data ++ SB ++ "\n".data)) := by
    intro t ht0 ht4 _ hp
    rw [show ("\n---".data : Str).length = 4 from rfl] at ht4
    interval_cases t
    · exact prefix_mismatch _ _ 0 (by decide) ' ' (by rw [hX]; decide) hp
    · exact prefix_mismatch _ _ 0 (by decide) ' ' (by rw [hX]; decide) hp
    · exact prefix_mismatch _ _ 0 (by decide) ' ' (by rw [hX]; decide) hp
  have hsplit : splitOnL "\n---".data ((docOf d cnt idsR tpsR SB).drop 4) =
      intercalateNL (fmLinesOf d cnt idsR tpsR) ::
        splitOnL "\n---".data
          ("\n\n# Newsletter Digest — ".data ++ d ++ "\n\n".data ++ SB ++ "\n".data) := by
    rw [hdrop]
    refine splitOnL_append_sep _ (by decide) _ _ ?_
    intro i hi
    rw [List.append_assoc]
    exact no_early_occ _ _ _ (fun j hp => hocc ⟨j, hp⟩) hspan i hi
  have hfl : parseFrontmatterLists (intercalateNL (fmLinesOf d cnt idsR tpsR)) =
      (idsR, tpsR) := by
    unfold parseFrontmatterLists
    rw [linesOf_intercalate _ (by unfold fmLinesOf; simp) hnl]
    unfold fmLinesOf
    rw [foldl_fm_full d cnt idsR tpsR hids htps]
  have hlen2 : 2 ≤ (splitOnL "\n---".data ((docOf d cnt idsR tpsR SB).drop 4)).length := by
    rw [hsplit]
    have h1 := List.length_pos.mpr (splitOnL_ne_nil "\n---".data
      ("\n\n# Newsletter Digest — ".data ++ d ++ "\n\n".data ++ SB ++ "\n".data))
    simp only [List.length_cons]
    exact Nat.succ_le_succ h1
  have hget0 : (splitOnL "\n---".data ((docOf d cnt idsR tpsR SB).drop 4)).getD 0 [] =
      intercalateNL (fmLinesOf d cnt idsR tpsR) := by
    rw [hsplit]
    rfl
  have hfm : parseFmPair (docOf d cnt idsR tpsR SB) = (idsR, tpsR) := by
    unfold parseFmPair
    rw [if_pos hpre]
    show (if 2 ≤ (splitOnL "\n---".data ((docOf d cnt idsR tpsR SB).drop 4)).length then
        parseFrontmatterLists
          ((splitOnL "\n---".data ((docOf d cnt idsR tpsR SB).drop 4)).getD 0 [])
      else ([], [])) = (idsR, tpsR)
    rw [if_pos hlen2, hget0, hfl]
  constructor
  · rw [parseDigestMarkdown_emailIds, hfm]
  · rw [parseDigestMarkdown_topics, hfm]
    rw [if_pos (show ((idsR, tpsR).2 : List Str) ≠ [] from htpsne)]

/-! ## Body region of the rendered document -/

theorem fm_lines_head_not_hash (d cnt : Str) (idsR tpsR : List Str) :
    ∀ l ∈ fmLinesOf d cnt idsR tpsR, l.headD ' ' ≠ '#' := by
  intro l hl
  unfold fmLinesOf at hl
  rcases List.mem_append.mp hl with h1 | h1
  · rcases List.mem_append.mp h1 with h2 | h2
    · rcases List.mem_append.mp h2 with h3 | h3
      · rcases List.mem_cons.mp h3 with h | h3
        · subst h; decide
        rcases List.mem_cons.mp h3 with h | h3
        · subst h; decide
        rcases List.mem_cons.mp h3 with h | h3
        · subst h; decide
        rcases List.mem_cons.mp h3 with h | h3
        · subst h; simp
        rcases List.mem_cons.mp h3 with h | h3
        · subst h; simp
        rcases List.mem_cons.mp h3 with h | h3
        · subst h; decide
        · simp at h3
      · obtain ⟨x, _, hlx⟩ := List.mem_map.mp h3
        subst hlx
        simp
    · rw [List.mem_singleton.mp h2]; decide
  · obtain ⟨x, _, hlx⟩ := List.mem_map.mp h1
    subst hlx
    simp

/-- The pairs phase of the parser applied to a rendered document recovers one
trimmed, topic-tagged entry per rendered entry. -/
theorem parse_doc_entries (d cnt : Str) (idsR tpsR : List Str)
    (present : List (Str × List Str))
    (hd : '\n' ∉ d) (hdne : d ≠ []) (hcnt : '\n' ∉ cnt)
    (hids : ∀ x ∈ idsR, goodItem x) (htps : ∀ x ∈ tpsR, goodItem x)
    (hidsne : idsR ≠ []) (htpsne : tpsR ≠ [])
    (hpres : ∀ tg ∈ present, tg.1 ∈ TOPIC_ORDER ∧ tg.2 ≠ [] ∧ ∀ e ∈ tg.2, goodEntry e)
    (hpne : present ≠ []) :
    parsePairs (docOf d cnt idsR tpsR
        (List.intercalate "\n\n".data (present.map fun tg =>
          ("## ".data ++ getTopicEmoji tg.1 ++ [' '] ++ tg.1) ++ "\n\n".data ++
          List.intercalate sepMarker tg.2))) =
      present.flatMap fun tg => tg.2.map fun e => (trimL e, some tg.1) := by
  have hnlfm : ∀ l ∈ fmLinesOf d cnt idsR tpsR, '\n' ∉ l :=
    fm_lines_no_nl d cnt idsR tpsR hd hcnt
      (fun x hx => (hids x hx).2.1) (fun x hx => (htps x hx).2.1)
  have hnlSB : ∀ l ∈ linesOf (List.intercalate "\n\n".data (present.map fun tg =>
      ("## ".data ++ getTopicEmoji tg.1 ++ [' '] ++ tg.1) ++ "\n\n".data ++
      List.intercalate sepMarker tg.2)), '\n' ∉ l := by
    intro l hl hmem
    exact splitOnL_single_no_nl '\n' _ l hl hmem
  have hdoc : docOf d cnt idsR tpsR
      (List.intercalate "\n\n".data (present.map fun tg =>
        ("## ".data ++ getTopicEmoji tg.1 ++ [' '] ++ tg.1) ++ "\n\n".data ++
        List.intercalate sepMarker tg.2)) =
      intercalateNL ((["---".data] ++ fmLinesOf d cnt idsR tpsR ++
          ["---".data] ++ [([] : Str)]) ++
        ("# Newsletter Digest — ".data ++ d) :: ([] : Str) ::
          (linesOf (List.intercalate "\n\n".data (present.map fun tg =>
            ("## ".data ++ getTopicEmoji tg.1 ++ [' '] ++ tg.1) ++ "\n\n".data ++
            List.intercalate sepMarker tg.2)) ++ [([] : Str)])) := by
    have hFne : fmLinesOf d cnt idsR tpsR ≠ [] := by unfold fmLinesOf; simp
    rw [intercalateNL_append
      (["---".data] ++ fmLinesOf d cnt idsR tpsR ++ ["---".data] ++ [([] : Str)]) _
      (by simp) (by simp)]
    rw [intercalateNL_append
      (["---".data] ++ fmLinesOf d cnt idsR tpsR ++ ["---".data]) [([] : Str)]
      (by simp) (by simp)]
    rw [intercalateNL_append (["---".data] ++ fmLinesOf d cnt idsR tpsR) ["---".data]
      (by simp) (by simp)]
    rw [intercalateNL_append ["---".data] (fmLinesOf d cnt idsR tpsR) (by simp) hFne]
    simp only [intercalateNL_single]
    rw [intercalateNL_cons_ne ("# Newsletter Digest — ".data ++ d) _ (by simp)]
    rw [intercalateNL_cons_ne ([] : Str) _ (by simp)]
    rw [intercalateNL_snoc_empty (linesOf _)
      (show linesOf _ ≠ [] from splitOnL_ne_nil _ _), intercalateNL_linesOf]
    rw [fm_body_eq d cnt idsR tpsR hidsne htpsne]
    unfold docOf
    simp [List.append_assoc]
  have hls : linesOf (docOf d cnt idsR tpsR
      (List.intercalate "\n\n".data (present.map fun tg =>
        ("## ".data ++ getTopicEmoji tg.1 ++ [' '] ++ tg.1) ++ "\n\n".data ++
        List.intercalate sepMarker tg.2))) =
      (["---".data] ++ fmLinesOf d cnt idsR tpsR ++ ["---".data] ++ [([] : Str)]) ++
        ("# Newsletter Digest — ".data ++ d) :: ([] : Str) ::
          (linesOf (List.intercalate "\n\n".data (present.map fun tg =>
            ("## ".data ++ getTopicEmoji tg.1 ++ [' '] ++ tg.1) ++ "\n\n".data ++
            List.intercalate sepMarker tg.2)) ++ [([] : Str)]) := by
    rw [hdoc]
    refine linesOf_intercalate _ (by simp) ?_
    intro l hl
    rcases List.mem_append.mp hl with h1 | h1
    · rcases List.mem_append.mp h1 with h2 | h2
      · rcases List.mem_append.mp h2 with h3 | h3
        · rcases List.mem_append.mp h3 with h4 | h4
          · rw [List.mem_singleton.mp h4]; decide
          · exact hnlfm l h4
        · rw [List.mem_singleton.mp h3]; decide
      · rw [List.mem_singleton.mp h2]; simp
    · rcases List.mem_cons.mp h1 with h | h2
      · subst h
        intro hmem
        rcases List.mem_append.mp hmem with hm | hm
        · exact absurd hm (by decide)
        · exact hd hm
      rcases List.mem_cons.mp h2 with h | h3
      · subst h; simp
      rcases List.mem_append.mp h3 with h4 | h4
      · exact hnlSB l h4
      · rw [List.mem_singleton.mp h4]; simp
  have htitle : findTitleIdx ((["---".data] ++ fmLinesOf d cnt idsR tpsR ++
        ["---".data] ++ [([] : Str)]) ++
      ("# Newsletter Digest — ".data ++ d) :: ([] : Str) ::
        (linesOf (List.intercalate "\n\n".data (present.map fun tg =>
          ("## ".data ++ getTopicEmoji tg.1 ++ [' '] ++ tg.1) ++ "\n\n".data ++
          List.intercalate sepMarker tg.2)) ++ [([] : Str)])) =
      some (["---".data] ++ fmLinesOf d cnt idsR tpsR ++
        ["---".data] ++ [([] : Str)]).length := by
    refine findTitle_concrete _ _ _ ?_ ?_ ?_ (by simp)
    · intro l hl
      rcases List.mem_append.mp hl with h1 | h1
      · rcases List.mem_append.mp h1 with h2 | h2
        · rcases List.mem_append.mp h2 with h3 | h3
          · rw [List.mem_singleton.mp h3]; decide
          · exact fm_lines_head_not_hash d cnt idsR tpsR l h3
        · rw [List.mem_singleton.mp h2]; decide
      · rw [List.mem_singleton.mp h1]; decide
    · exact List.prefix_append _ _
    · rw [List.length_append, show titleMarker.length = 22 from rfl,
        show ("# Newsletter Digest — ".data : Str).length = 22 from rfl]
      have := List.length_pos.mpr hdne
      omega
  have hbodylines := body_lines present hpne
    (fun tg htg => ((topic_order_facts tg.1 (hpres tg htg).1).2.2.1))
  have hany : (present.flatMap fun tg =>
      ("## ".data ++ getTopicEmoji tg.1 ++ [' '] ++ tg.1) :: [] ::
      (linesOf (List.intercalate sepMarker tg.2) ++ [[]])).any isTopicHeaderTest = true := by
    cases present with
    | nil => exact absurd rfl hpne
    | cons tg rest =>
      refine List.any_eq_true.mpr ⟨"## ".data ++ getTopicEmoji tg.1 ++ [' '] ++ tg.1, ?_, ?_⟩
      · exact List.mem_flatMap.mpr ⟨tg, by simp, by simp⟩
      · exact (topic_order_facts tg.1 (hpres tg (by simp)).1).2.1
  unfold parsePairs
  rw [hls, htitle]
  simp only [parsePairsAux]
  rw [drop_append_add]
  simp only [List.drop_succ_cons, List.drop_zero]
  rw [intercalateNL_snoc_empty (linesOf _)
    (show linesOf _ ≠ [] from splitOnL_ne_nil _ _), intercalateNL_linesOf]
  rw [hbodylines, if_pos hany]
  exact pipeline_blocks present hpres hpne

/-! ## The rendered document as a docOf instance -/

theorem render_eq_docOf (date : JsDate) (entries emailIds topics : List Str) :
    generateDigestMarkdown date entries emailIds topics =
      docOf (formatDate date) (natToChars (sortedEntriesOf entries topics).length)
        (sortedIdsOf entries emailIds topics) (sortedTopicsOf entries topics)
        (List.intercalate "\n\n".data (TOPIC_ORDER.filterMap fun topic =>
          if (((sortedTopicsOf entries topics).zip
              (sortedEntriesOf entries topics)).filterMap fun p =>
              if p.1 = topic then some p.2 else none) = [] then none
          else some ("## ".data ++ getTopicEmoji topic ++ [' '] ++ topic ++
                     "\n\n".data ++ List.intercalate sepMarker
                       (((sortedTopicsOf entries topics).zip
                         (sortedEntriesOf entries topics)).filterMap fun p =>
                         if p.1 = topic then some p.2 else none)))) := by
  unfold generateDigestMarkdown docOf sortedEntriesOf sortedIdsOf sortedTopicsOf
  simp [List.append_assoc]

/-! ## Facts about the digest sort permutation -/

theorem digestSortIdx_lt (entries topics : List Str) :
    ∀ i ∈ digestSortIdx entries topics, i < entries.length := by
  intro i hi
  unfold digestSortIdx at hi
  exact List.mem_range.mp ((sortByKey_perm _ _).mem_iff.mp hi)

theorem digestSortIdx_length (entries topics : List Str) :
    (digestSortIdx entries topics).length = entries.length := by
  unfold digestSortIdx
  rw [(sortByKey_perm _ _).length_eq, List.length_range]

theorem normalizeTopics_length (entries topics : List Str) :
    (normalizeTopics entries topics).length = entries.length := by
  simp [normalizeTopics]

theorem norm_mem (entries topics : List Str) :
    ∀ t ∈ normalizeTopics entries topics, t = DEFAULT_TOPIC ∨ (t ∈ topics ∧ t ≠ []) := by
  intro t ht
  unfold normalizeTopics at ht
  obtain ⟨i, hi, heq⟩ := List.mem_map.mp ht
  by_cases h : topics.getD i [] = []
  · rw [if_pos h] at heq
    exact Or.inl heq.symm
  · rw [if_neg h] at heq
    subst heq
    refine Or.inr ⟨?_, h⟩
    by_cases hlen : i < topics.length
    · exact getD_mem_of_lt _ _ _ hlen
    · exfalso
      apply h
      push_neg at hlen
      rw [List.getD_eq_default _ _ hlen]

theorem sortedTopicsOf_goodItem (entries topics : List Str)
    (hgt : ∀ t ∈ topics, t ≠ [] → goodItem t) :
    ∀ x ∈ sortedTopicsOf entries topics, goodItem x := by
  intro x hx
  unfold sortedTopicsOf at hx
  obtain ⟨i, hi, hx2⟩ := List.mem_map.mp hx
  subst hx2
  have hlt : i < (normalizeTopics entries topics).length := by
    rw [normalizeTopics_length]
    exact digestSortIdx_lt entries topics i hi
  have hmem := getD_mem_of_lt _ ([] : Str) i hlt
  rcases norm_mem entries topics _ hmem with h | ⟨h1, h2⟩
  · rw [h]
    exact topic_order_goodItem _ default_topic_mem
  · exact hgt _ h1 h2

theorem sortedIdsOf_goodItem (entries emailIds topics : List Str)
    (hgi : ∀ x ∈ emailIds, goodItem x) (hli : emailIds.length = entries.length) :
    ∀ x ∈ sortedIdsOf entries emailIds topics, goodItem x := by
  intro x hx
  unfold sortedIdsOf at hx
  obtain ⟨i, hi, hx2⟩ := List.mem_map.mp hx
  subst hx2
  refine hgi _ (getD_mem_of_lt _ ([] : Str) i ?_)
  rw [hli]
  exact digestSortIdx_lt entries topics i hi

theorem sortedIdsOf_length (entries emailIds topics : List Str) :
    (sortedIdsOf entries emailIds topics).length = entries.length := by
  unfold sortedIdsOf
  rw [List.length_map, digestSortIdx_length]

theorem sortedTopicsOf_length (entries topics : List Str) :
    (sortedTopicsOf entries topics).length = entries.length := by
  unfold sortedTopicsOf
  rw [List.length_map, digestSortIdx_length]

theorem sortedEntriesOf_length (entries topics : List Str) :
    (sortedEntriesOf entries topics).length = entries.length := by
  unfold sortedEntriesOf
  rw [List.length_map, digestSortIdx_length]

theorem sortedIdsOf_ne_nil (entries emailIds topics : List Str) (hne : entries ≠ []) :
    sortedIdsOf entries emailIds topics ≠ [] := by
  intro h
  have hlen := sortedIdsOf_length entries emailIds topics
  rw [h] at hlen
  exact hne (List.length_eq_zero.mp hlen.symm)

theorem sortedTopicsOf_ne_nil (entries topics : List Str) (hne : entries ≠ []) :
    sortedTopicsOf entries topics ≠ [] := by
  intro h
  have hlen := sortedTopicsOf_length entries topics
  rw [h] at hlen
  exact hne (List.length_eq_zero.mp hlen.symm)

/-- Master frontmatter round trip: parsing a rendered digest recovers the
sorted id and topic lists verbatim from the frontmatter. -/
theorem digest_master_fm (date : JsDate) (entries emailIds topics : List Str)
    (hne : entries ≠ [])
    (hgi : ∀ x ∈ emailIds, goodItem x)
    (hgt : ∀ t ∈ topics, t ≠ [] → goodItem t)
    (hli : emailIds.length = entries.length) :
    (parseDigestMarkdown (generateDigestMarkdown date entries emailIds topics)).emailIds
        = sortedIdsOf entries emailIds topics ∧
    (parseDigestMarkdown (generateDigestMarkdown date entries emailIds topics)).topics
        = sortedTopicsOf entries topics := by
  rw [render_eq_docOf]
  exact parse_doc_fm _ _ _ _ _ (formatDate_no_nl date) (natToChars_no_nl _)
    (sortedIdsOf_goodItem entries emailIds topics hgi hli)
    (sortedTopicsOf_goodItem entries topics hgt)
    (sortedIdsOf_ne_nil entries emailIds topics hne)
    (sortedTopicsOf_ne_nil entries topics hne)

/-! ## Sections as the present-topics map -/

theorem filterMap_guard_map {α β γ : Type} [DecidableEq β] (f : α → List β)
    (g : α → List β → γ) :
    ∀ (l : List α),
      (l.filterMap fun t => if f t = [] then none else some (g t (f t))) =
        (l.filterMap fun t => if f t = [] then none else some (t, f t)).map
          fun tg => g tg.1 tg.2 := by
  intro l
  induction l with
  | nil => rfl
  | cons x xs ih =>
    rw [List.filterMap_cons, List.filterMap_cons]
    by_cases h : f x = []
    · rw [if_pos h, if_pos h, ih]
    · rw [if_neg h, if_neg h, List.map_cons, ih]

theorem filterMap_dite_eq_map_filter {α β : Type} (p : α → Prop) [DecidablePred p]
    (f : α → β) :
    ∀ (l : List α),
      (l.filterMap fun a => if p a then some (f a) else none) =
        (l.filter fun a => decide (p a)).map f := by
  intro l
  induction l with
  | nil => rfl
  | cons x xs ih =>
    rw [List.filterMap_cons, List.filter_cons]
    by_cases h : p x
    · rw [if_pos h, if_pos (by simpa using h), List.map_cons, ih]
    · rw [if_neg h, if_neg (by simpa using h), ih]

theorem render_eq_docOf_present (date : JsDate) (entries emailIds topics : List Str) :
    generateDigestMarkdown date entries emailIds topics =
      docOf (formatDate date) (natToChars (sortedEntriesOf entries topics).length)
        (sortedIdsOf entries emailIds topics) (sortedTopicsOf entries topics)
        (List.intercalate "\n\n".data ((presentOf entries topics).map fun tg =>
          ("## ".data ++ getTopicEmoji tg.1 ++ [' '] ++ tg.1) ++ "\n\n".data ++
          List.intercalate sepMarker tg.2)) := by
  rw [render_eq_docOf]
  congr 1
  congr 1
  exact filterMap_guard_map
    (fun topic => ((sortedTopicsOf entries topics).zip
      (sortedEntriesOf entries topics)).filterMap fun p =>
      if p.1 = topic then some p.2 else none)
    (fun t e => "## ".data ++ getTopicEmoji t ++ [' '] ++ t ++ "\n\n".data ++
      List.intercalate sepMarker e)
    TOPIC_ORDER

/-! ## The emitted sections flatten back to the sorted entries -/

theorem presentOf_mem (entries topics : List Str) :
    ∀ tg ∈ presentOf entries topics,
      tg.1 ∈ TOPIC_ORDER ∧ tg.2 = topicEntriesOf entries topics tg.1 ∧ tg.2 ≠ [] := by
  intro tg htg
  unfold presentOf at htg
  obtain ⟨t, ht, heq⟩ := List.mem_filterMap.mp htg
  by_cases h : topicEntriesOf entries topics t = []
  · rw [if_pos h] at heq
    exact absurd heq (by simp)
  · rw [if_neg h] at heq
    have h2 : (t, topicEntriesOf entries topics t) = tg := Option.some_inj.mp heq
    rw [← h2]
    exact ⟨ht, rfl, h⟩

theorem sortedEntriesOf_sub (entries topics : List Str) :
    ∀ e ∈ sortedEntriesOf entries topics, e ∈ entries := by
  intro e he
  unfold sortedEntriesOf at he
  obtain ⟨i, hi, he2⟩ := List.mem_map.mp he
  subst he2
  exact getD_mem_of_lt _ _ _ (digestSortIdx_lt entries topics i hi)

theorem topicEntriesOf_sub (entries topics : List Str) (t : Str) :
    ∀ e ∈ topicEntriesOf entries topics t, e ∈ sortedEntriesOf entries topics := by
  intro e he
  unfold topicEntriesOf at he
  obtain ⟨p, hp, hpe⟩ := List.mem_filterMap.mp he
  obtain ⟨a, b⟩ := p
  by_cases h : a = t
  · simp only [h, if_true] at hpe
    have h2 := Option.some_inj.mp hpe
    subst h2
    exact (List.of_mem_zip hp).2
  · rw [if_neg h] at hpe
    exact absurd hpe (by simp)

theorem presentOf_hyps (entries topics : List Str)
    (hge : ∀ e ∈ entries, goodEntry e) :
    ∀ tg ∈ presentOf entries topics,
      tg.1 ∈ TOPIC_ORDER ∧ tg.2 ≠ [] ∧ ∀ e ∈ tg.2, goodEntry e := by
  intro tg htg
  obtain ⟨h1, h2, h3⟩ := presentOf_mem entries topics tg htg
  refine ⟨h1, h3, ?_⟩
  intro e he
  rw [h2] at he
  exact hge e (sortedEntriesOf_sub entries topics e
    (topicEntriesOf_sub entries topics tg.1 e he))

theorem presentOf_flat (entries topics : List Str) :
    (presentOf entries topics).flatMap (fun tg => tg.2) =
      TOPIC_ORDER.flatMap (topicEntriesOf entries topics) := by
  unfold presentOf
  exact filterMap_guard_flatMap (topicEntriesOf entries topics) TOPIC_ORDER

theorem formatDate_ne_nil (dt : JsDate) : formatDate dt ≠ [] := by
  intro h
  have := congrArg List.length h
  simp [formatDate, padNum] at this

/-- The topic-section loop of the renderer, read back in TOPIC_ORDER order,
flattens to exactly the sorted entry list: the sort is stable and its key is
the TOPIC_ORDER rank, so the rank-equal segments of the sorted list appear in
rank order. -/
theorem topic_flat_sorted (entries topics : List Str)
    (htop : ∀ t ∈ topics, t ∈ TOPIC_ORDER) :
    TOPIC_ORDER.flatMap (topicEntriesOf entries topics) =
      sortedEntriesOf entries topics := by
  have hnormTO : ∀ i, i < entries.length →
      (normalizeTopics entries topics).getD i [] ∈ TOPIC_ORDER := by
    intro i hi
    have hmem := getD_mem_of_lt (normalizeTopics entries topics) ([] : Str) i
      (by rw [normalizeTopics_length]; exact hi)
    rcases norm_mem entries topics _ hmem with h | ⟨h1, _⟩
    · rw [h]
      exact default_topic_mem
    · exact htop _ h1
  have hzip : (sortedTopicsOf entries topics).zip (sortedEntriesOf entries topics) =
      (digestSortIdx entries topics).map
        (fun i => ((normalizeTopics entries topics).getD i [], entries.getD i [])) := by
    unfold sortedTopicsOf sortedEntriesOf
    exact List.zip_map' _ _ _
  have hseg : ∀ t : Str, topicEntriesOf entries topics t =
      ((digestSortIdx entries topics).filter fun i =>
        decide ((normalizeTopics entries topics).getD i [] = t)).map
        (fun i => entries.getD i []) := by
    intro t
    unfold topicEntriesOf
    rw [hzip, List.filterMap_map]
    exact filterMap_dite_eq_map_filter
      (fun i => (normalizeTopics entries topics).getD i [] = t)
      (fun i => entries.getD i []) (digestSortIdx entries topics)
  have hkeylt : ∀ i ∈ List.range entries.length,
      topicRank ((normalizeTopics entries topics).getD i []) < TOPIC_ORDER.length :=
    fun i hi => topicRank_lt _ (hnormTO i (List.mem_range.mp hi))
  have hcount := sortByKey_segments
    (fun i => topicRank ((normalizeTopics entries topics).getD i []))
    TOPIC_ORDER.length (List.range entries.length) hkeylt
  have hstab : ∀ r ∈ List.range TOPIC_ORDER.length,
      ((digestSortIdx entries topics).filter fun i =>
        decide (topicRank ((normalizeTopics entries topics).getD i []) = r)) =
      ((List.range entries.length).filter fun i =>
        decide (topicRank ((normalizeTopics entries topics).getD i []) = r)) := by
    intro r hr
    unfold digestSortIdx
    rw [← hcount]
    exact filter_sorted_segment _ (List.range entries.length) r
      (List.range TOPIC_ORDER.length) (List.nodup_range _) hr
  have hrank : ∀ r ∈ List.range TOPIC_ORDER.length,
      ((digestSortIdx entries topics).filter fun i =>
        decide ((normalizeTopics entries topics).getD i [] = TOPIC_ORDER.getD r [])) =
      ((digestSortIdx entries topics).filter fun i =>
        decide (topicRank ((normalizeTopics entries topics).getD i []) = r)) := by
    intro r hr
    have hrlt := List.mem_range.mp hr
    refine List.filter_congr ?_
    intro i hi
    have hiTO := hnormTO i (digestSortIdx_lt entries topics i hi)
    by_cases h : (normalizeTopics entries topics).getD i [] = TOPIC_ORDER.getD r []
    · have h2 : topicRank ((normalizeTopics entries topics).getD i []) = r := by
        rw [h]
        exact topicRank_getD r hrlt
      exact decide_eq_decide.mpr (iff_of_true h h2)
    · have h2 : ¬ topicRank ((normalizeTopics entries topics).getD i []) = r := by
        intro hc
        apply h
        rw [← getD_topicRank _ hiTO, hc]
      exact decide_eq_decide.mpr (iff_of_false h h2)
  calc TOPIC_ORDER.flatMap (topicEntriesOf entries topics)
      = ((List.range TOPIC_ORDER.length).map fun r =>
          TOPIC_ORDER.getD r []).flatMap (topicEntriesOf entries topics) := by
        rw [map_getD_range]
    _ = (List.range TOPIC_ORDER.length).flatMap fun r =>
          topicEntriesOf entries topics (TOPIC_ORDER.getD r []) := by
        rw [List.flatMap_map]
    _ = (List.range TOPIC_ORDER.length).flatMap fun r =>
          ((List.range entries.length).filter fun i =>
            decide (topicRank ((normalizeTopics entries topics).getD i []) = r)).map
            (fun i => entries.getD i []) := by
        refine flatMap_congr_mem _ _ _ ?_
        intro r hr
        rw [hseg, hrank r hr, hstab r hr]
    _ = ((List.range TOPIC_ORDER.length).flatMap fun r =>
          (List.range entries.length).filter fun i =>
            decide (topicRank ((normalizeTopics entries topics).getD i []) = r)).map
          (fun i => entries.getD i []) := by
        rw [List.map_flatMap]
    _ = sortedEntriesOf entries topics := by
        rw [hcount]
        rfl

/-- Master body round trip: parsing a rendered digest recovers, as its entry
list, the trimmed sorted entries. -/
theorem digest_master_entries (date : JsDate) (entries emailIds topics : List Str)
    (hne : entries ≠ [])
    (hge : ∀ e ∈ entries, goodEntry e)
    (hgi : ∀ x ∈ emailIds, goodItem x)
    (htop : ∀ t ∈ topics, t ∈ TOPIC_ORDER)
    (hli : emailIds.length = entries.length) :
    (parseDigestMarkdown (generateDigestMarkdown date entries emailIds topics)).entries
      = (sortedEntriesOf entries topics).map trimL := by
  have hgt : ∀ t ∈ topics, t ≠ [] → goodItem t :=
    fun t ht _ => topic_order_goodItem t (htop t ht)
  have hpres := presentOf_hyps entries topics hge
  have hpne : presentOf entries topics ≠ [] := by
    intro h
    have hflat := presentOf_flat entries topics
    rw [h] at hflat
    have h2 : sortedEntriesOf entries topics = [] := by
      rw [← topic_flat_sorted entries topics htop, ← hflat]
      rfl
    have hlen := sortedEntriesOf_length entries topics
    rw [h2] at hlen
    exact hne (List.length_eq_zero.mp hlen.symm)
  rw [parseDigestMarkdown_entries, render_eq_docOf_present]
  rw [parse_doc_entries (formatDate date) _ _ _ (presentOf entries topics)
    (formatDate_no_nl date) (formatDate_ne_nil date) (natToChars_no_nl _)
    (sortedIdsOf_goodItem entries emailIds topics hgi hli)
    (sortedTopicsOf_goodItem entries topics hgt)
    (sortedIdsOf_ne_nil entries emailIds topics hne)
    (sortedTopicsOf_ne_nil entries topics hne) hpres hpne]
  rw [List.map_flatMap]
  rw [flatMap_congr_mem _ _ (fun tg => tg.2.map trimL) (by
    intro tg _
    rw [List.map_map]
    rfl)]
  rw [← List.map_flatMap]
  rw [presentOf_flat, topic_flat_sorted entries topics htop]

theorem sortedIdsOf_perm (entries emailIds topics : List Str)
    (hli : emailIds.length = entries.length) :
    (sortedIdsOf entries emailIds topics).Perm emailIds := by
  unfold sortedIdsOf digestSortIdx
  refine ((sortByKey_perm (fun i => topicRank ((normalizeTopics entries topics).getD i []))
    (List.range entries.length)).map (fun i => emailIds.getD i [])).trans ?_
  rw [← hli, map_getD_range emailIds []]

/-! ## Claim theorems for the header region, round trip, and topic defaults -/

/-- C1 counterexample: two messages with topics Design then Tech in that
arrival order; the rendered frontmatter lists the ids re-sorted by topic
priority (Tech first), not in arrival order, so the header region does not
enumerate ids in merge order. -/
theorem C1_header_order_counterexample :
    (parseDigestMarkdown (generateDigestMarkdown ⟨2026, 2, 3⟩ c1Entries c1Ids
        c1Topics)).emailIds = ["id-2".data, "id-1".data] ∧
    (parseDigestMarkdown (generateDigestMarkdown ⟨2026, 2, 3⟩ c1Entries c1Ids
        c1Topics)).emailIds ≠ c1Ids ∧
    (parseDigestMarkdown (generateDigestMarkdown ⟨2026, 2, 3⟩ c1Entries c1Ids
        c1Topics)).topics = ["Tech".data, "Design".data] := by
  decide

/-- C1 (amended): the frontmatter header region of every rendered digest
enumerates the email ids and topics in the same topic-priority-sorted order
as the body sections — generateDigestMarkdown sorts all parallel arrays
before rendering the frontmatter, so the header region is NOT in arrival
order whenever the stable topic sort moves an element. -/
theorem C1_header_region_sorted (date : JsDate) (entries emailIds topics : List Str)
    (hne : entries ≠ [])
    (hgi : ∀ x ∈ emailIds, goodItem x)
    (hgt : ∀ t ∈ topics, t ≠ [] → goodItem t)
    (hli : emailIds.length = entries.length) :
    (parseDigestMarkdown (generateDigestMarkdown date entries emailIds topics)).emailIds
        = sortedIdsOf entries emailIds topics ∧
    (parseDigestMarkdown (generateDigestMarkdown date entries emailIds topics)).topics
        = sortedTopicsOf entries topics :=
  digest_master_fm date entries emailIds topics hne hgi hgt hli

theorem C1_header_region_sorted_witness :
    ((parseDigestMarkdown (generateDigestMarkdown ⟨2026, 2, 3⟩ c1Entries c1Ids
        c1Topics)).emailIds = sortedIdsOf c1Entries c1Ids c1Topics ∧
     (parseDigestMarkdown (generateDigestMarkdown ⟨2026, 2, 3⟩ c1Entries c1Ids
        c1Topics)).topics = sortedTopicsOf c1Entries c1Topics) ∧
    sortedIdsOf c1Entries c1Ids c1Topics = ["id-2".data, "id-1".data] :=
  ⟨C1_header_region_sorted ⟨2026, 2, 3⟩ c1Entries c1Ids c1Topics (by decide)
    (by decide) (by decide) (by decide), by decide⟩

/-- C4 counterexample: a two-entry render whose second entry is whitespace
only; neither entry contains the section-boundary marker and the ids are
distinct, yet the parse recovers a single entry, so the entry count is not
preserved. -/
theorem C4_roundtrip_counterexample :
    (parseDigestMarkdown c4BadRender).entries.length = 1 ∧
    (parseDigestMarkdown c4BadRender).emailIds = ["id-1".data, "id-2".data] := by
  decide

/-- C4 (amended): for a non-empty batch whose entries are non-blank, free of
separator- and header-like sequences, whose ids are well-formed list items,
and whose topics are registered, the parse of the render recovers the ids as
a permutation of the input ids, one entry per input entry, and the entry
list is exactly the topic-sorted entries up to trimming. -/
theorem C4_roundtrip (date : JsDate) (entries emailIds topics : List Str)
    (hne : entries ≠ [])
    (hge : ∀ e ∈ entries, goodEntry e)
    (hgi : ∀ x ∈ emailIds, goodItem x)
    (htop : ∀ t ∈ topics, t ∈ TOPIC_ORDER)
    (hli : emailIds.length = entries.length) :
    (parseDigestMarkdown (generateDigestMarkdown date entries emailIds
        topics)).emailIds.Perm emailIds ∧
    (parseDigestMarkdown (generateDigestMarkdown date entries emailIds
        topics)).entries.length = entries.length ∧
    (parseDigestMarkdown (generateDigestMarkdown date entries emailIds
        topics)).entries = (sortedEntriesOf entries topics).map trimL := by
  have hgt : ∀ t ∈ topics, t ≠ [] → goodItem t :=
    fun t ht _ => topic_order_goodItem t (htop t ht)
  have hfm := digest_master_fm date entries emailIds topics hne hgi hgt hli
  have hent := digest_master_entries date entries emailIds topics hne hge hgi htop hli
  refine ⟨?_, ?_, hent⟩
  · rw [hfm.1]
    exact sortedIdsOf_perm entries emailIds topics hli
  · rw [hent, List.length_map, sortedEntriesOf_length]

theorem C4_roundtrip_witness :
    (parseDigestMarkdown (generateDigestMarkdown ⟨2026, 2, 3⟩
        ["### A — S\n**From:** a@b.com".data] ["id-1".data] ["Tech".data])).entries
      = (sortedEntriesOf ["### A — S\n**From:** a@b.com".data] ["Tech".data]).map trimL ∧
    (sortedEntriesOf ["### A — S\n**From:** a@b.com".data] ["Tech".data]).map trimL
      = ["### A — S\n**From:** a@b.com".data] :=
  ⟨(C4_roundtrip ⟨2026, 2, 3⟩ ["### A — S\n**From:** a@b.com".data] ["id-1".data]
      ["Tech".data] (by decide) (by decide) (by decide) (by decide) (by decide)).2.2,
   by decide⟩

/-- C5: an entry whose topic label ("Sports") is not in TOPIC_ORDER is
recorded in the rendered frontmatter (its id and its topic are both present)
but its entry text is emitted nowhere in the document: the body render loop
iterates only over TOPIC_ORDER, so the unknown-topic section is dropped and
the parse recovers no entries — the body silently loses the entry while the
header still references it. -/
theorem C5_unknown_topic_dropped :
    (parseDigestMarkdown c5Render).topics = ["Sports".data] ∧
    (parseDigestMarkdown c5Render).emailIds = ["id-1".data] ∧
    occursInB "id-1".data c5Render = true ∧
    occursInB "### S — s".data c5Render = false ∧
    (parseDigestMarkdown c5Render).entries = [] := by
  decide

/-- C10: whatever topics array the caller supplies — shorter than the entry
list included — the rendered frontmatter email_topics list has exactly one
topic per entry, each missing or empty slot replaced by DEFAULT_TOPIC, in the
same sorted order as the other frontmatter lists. -/
theorem C10_topics_parallel (date : JsDate) (entries emailIds topics : List Str)
    (hne : entries ≠ [])
    (hgi : ∀ x ∈ emailIds, goodItem x)
    (hgt : ∀ t ∈ topics, t ≠ [] → goodItem t)
    (hli : emailIds.length = entries.length) :
    (parseDigestMarkdown (generateDigestMarkdown date entries emailIds
        topics)).topics.length = entries.length ∧
    (parseDigestMarkdown (generateDigestMarkdown date entries emailIds
        topics)).topics = (digestSortIdx entries topics).map (fun i =>
          if topics.getD i [] = [] then DEFAULT_TOPIC else topics.getD i []) ∧
    ∀ t ∈ (parseDigestMarkdown (generateDigestMarkdown date entries emailIds
        topics)).topics, t ∈ topics ∨ t = DEFAULT_TOPIC := by
  have hfm := digest_master_fm date entries emailIds topics hne hgi hgt hli
  refine ⟨?_, ?_, ?_⟩
  · rw [hfm.2, sortedTopicsOf_length]
  · rw [hfm.2]
    unfold sortedTopicsOf
    refine List.map_congr_left ?_
    intro i hi
    have hilt := digestSortIdx_lt entries topics i hi
    unfold normalizeTopics
    rw [List.getD_eq_getElem _ _ (by simpa using hilt)]
    rw [List.getElem_map, List.getElem_range]
  · intro t ht
    rw [hfm.2] at ht
    unfold sortedTopicsOf at ht
    obtain ⟨i, hi, ht2⟩ := List.mem_map.mp ht
    subst ht2
    have hmem := getD_mem_of_lt (normalizeTopics entries topics) ([] : Str) i
      (by rw [normalizeTopics_length]; exact digestSortIdx_lt entries topics i hi)
    rcases norm_mem entries topics _ hmem with h | ⟨h1, _⟩
    · exact Or.inr h
    · exact Or.inl h1

theorem C10_topics_parallel_witness :
    (parseDigestMarkdown (generateDigestMarkdown ⟨2026, 2, 3⟩
        ["e1".data, "e2".data] ["id-1".data, "id-2".data] ["Tech".data])).topics
      = (digestSortIdx ["e1".data, "e2".data] ["Tech".data]).map (fun i =>
          if (["Tech".data] : List Str).getD i [] = [] then DEFAULT_TOPIC
          else (["Tech".data] : List Str).getD i []) ∧
    (digestSortIdx ["e1".data, "e2".data] ["Tech".data]).map (fun i =>
          if (["Tech".data] : List Str).getD i [] = [] then DEFAULT_TOPIC
          else (["Tech".data] : List Str).getD i []) = ["Tech".data, "General".data] :=
  ⟨(C10_topics_parallel ⟨2026, 2, 3⟩ ["e1".data, "e2".data]
      ["id-1".data, "id-2".data] ["Tech".data] (by decide) (by decide) (by decide)
      (by decide)).2.1, by decide⟩

end ObsidianInbox
